import Mathlib

/-!
# Verification of the DUNE JSONBus client (`jsonbus.py`)

A shallow embedding of the `JSONBusClient` class and its helpers.
Python strings are modelled as `List Char`; JSON values as the inductive
`J` (numbers restricted to integers: the repository's wire traffic is
modelled without floating point); fallible operations return `Option` /
`Except`.  The definitions below are transcribed from `src/jsonbus.py`;
theorems about the frozen specification claims follow at the end.
-/

set_option maxHeartbeats 1000000

namespace JSONBus

/-- Python `str`, modelled as a list of unicode scalar values. -/
abbrev Str := List Char

/-- Decimal digit test, as used by the JSON number grammar. -/
def isDigitC (c : Char) : Bool := 48 ≤ c.toNat && c.toNat ≤ 57

/-- JSON whitespace, Python `json`'s `_w` class: space, tab, newline, return. -/
def isJsonWs (c : Char) : Bool := c = ' ' || c = '\t' || c = '\n' || c = '\r'

/-- Whitespace stripped by Python `str.strip()` (ASCII portion). -/
def isPyWs (c : Char) : Bool :=
  c = ' ' || c = '\t' || c = '\n' || c = '\r' || c = '\x0b' || c = '\x0c'

/-- A JSON value.  Objects keep key/value insertion order, as Python
dicts do; numbers are integers (the model excludes floats). -/
inductive J where
  | null
  | bool (b : Bool)
  | int (n : Int)
  | str (s : Str)
  | arr (xs : List J)
  | obj (kvs : List (Str × J))
deriving Repr

/-- Lowercase hexadecimal digit, as used by `json.dumps` `\uXXXX` escapes. -/
def hexDigit (n : Nat) : Char :=
  if n < 10 then Char.ofNat (48 + n) else Char.ofNat (87 + n)

/-- Four-digit lowercase hex rendering of a code unit. -/
def hex4 (n : Nat) : Str :=
  [hexDigit (n / 4096 % 16), hexDigit (n / 256 % 16), hexDigit (n / 16 % 16), hexDigit (n % 16)]

/-- `\uXXXX` escape for one character, with a surrogate pair above U+FFFF,
exactly as `json.dumps` (with its default `ensure_ascii=True`) emits. -/
def uEscape (c : Char) : Str :=
  let n := c.toNat
  if n < 65536 then '\\' :: 'u' :: hex4 n
  else
    let m := n - 65536
    ('\\' :: 'u' :: hex4 (55296 + m / 1024)) ++ ('\\' :: 'u' :: hex4 (56320 + m % 1024))

/-- Escape one character of a JSON string the way `json.dumps` does with
`ensure_ascii=True`: short escapes for the characters in `ESCAPE_DCT`,
`\uXXXX` for everything outside `0x20..0x7e`, the literal otherwise. -/
def escapeChar (c : Char) : Str :=
  if c = '"' then ['\\', '"']
  else if c = '\\' then ['\\', '\\']
  else if c = '\n' then ['\\', 'n']
  else if c = '\r' then ['\\', 'r']
  else if c = '\t' then ['\\', 't']
  else if c = '\x08' then ['\\', 'b']
  else if c = '\x0c' then ['\\', 'f']
  else if c.toNat < 32 || 126 < c.toNat then uEscape c
  else [c]

/-- Escaped body of a JSON string literal. -/
def escStr (s : Str) : Str := s.flatMap escapeChar

/-- Decimal digits, most significant first; structural on a fuel bound. -/
def natDigitsAux : Nat → Nat → Str
  | 0, _ => []
  | Nat.succ fuel, n =>
    if n < 10 then [Char.ofNat (48 + n)]
    else natDigitsAux fuel (n / 10) ++ [Char.ofNat (48 + n % 10)]

/-- Decimal digits of a natural number, most significant first. -/
def natDigits (n : Nat) : Str := natDigitsAux (n + 1) n

/-- Python `str(int)`: optional minus sign, then decimal digits. -/
def intToStr (i : Int) : Str :=
  if i < 0 then '-' :: natDigits i.natAbs else natDigits i.natAbs

mutual

/-- `json.dumps` with its default arguments (`separators=(', ', ': ')`,
`ensure_ascii=True`), restricted to the model's integer numbers. -/
def dumps : J → Str
  | .null => "null".toList
  | .bool true => "true".toList
  | .bool false => "false".toList
  | .int n => intToStr n
  | .str s => '"' :: escStr s ++ ['"']
  | .arr xs => '[' :: dumpsItems xs
  | .obj kvs => '{' :: dumpsFields kvs

/-- Array items joined by `", "`, then the closing bracket. -/
def dumpsItems : List J → Str
  | [] => [']']
  | x :: xs => dumps x ++ dumpsTail xs

/-- Continuation after one array item: close, or separate and continue. -/
def dumpsTail : List J → Str
  | [] => [']']
  | y :: ys => ',' :: ' ' :: dumps y ++ dumpsTail ys

/-- Object fields `"key": value` joined by `", "`, then the closing brace. -/
def dumpsFields : List (Str × J) → Str
  | [] => ['}']
  | (k, v) :: kvs => '"' :: escStr k ++ '"' :: ':' :: ' ' :: dumps v ++ dumpsFTail kvs

/-- Continuation after one object field: close, or separate and continue. -/
def dumpsFTail : List (Str × J) → Str
  | [] => ['}']
  | (k, v) :: kvs => ',' :: ' ' :: '"' :: escStr k ++ '"' :: ':' :: ' ' :: dumps v ++ dumpsFTail kvs

end

/-! ## The parser side: a model of `json.loads`

Transcribed from CPython's pure-python scanner (`json/scanner.py`,
`json/decoder.py`): `py_scanstring` for string literals, `JSONArray` /
`JSONObject` for containers, the `NUMBER_RE` integer alternative for
numbers (the fraction/exponent alternatives produce floats, which are
outside the model).  Container scanning takes a fuel argument; `loads`
supplies `length + 1`, which is ample (the scanner consumes at least one
character per recursive step). -/

/-- Drop leading JSON whitespace, the scanner's `_w(s, idx).end()`. -/
def skipWs : Str → Str
  | [] => []
  | c :: rest => if isJsonWs c then skipWs rest else c :: rest

/-- Value of one hex digit, accepting both cases as `int(, 16)` does. -/
def hexVal (c : Char) : Option Nat :=
  if 48 ≤ c.toNat && c.toNat ≤ 57 then some (c.toNat - 48)
  else if 97 ≤ c.toNat && c.toNat ≤ 102 then some (c.toNat - 87)
  else if 65 ≤ c.toNat && c.toNat ≤ 70 then some (c.toNat - 55)
  else none

/-- `_decode_uXXXX`: four hex digits to a code unit. -/
def hex4Val (a b c d : Char) : Option Nat := do
  let va ← hexVal a
  let vb ← hexVal b
  let vc ← hexVal c
  let vd ← hexVal d
  pure (va * 4096 + vb * 256 + vc * 16 + vd)

mutual

/-- `py_scanstring` after the opening quote: content and the remainder
after the closing quote, or `none` on an unterminated/invalid literal.
An unescaped control character is rejected (`strict` mode).  The fuel
argument only bounds recursion depth; callers supply a bound that is
ample for the input (two units per scanned character suffice). -/
def parseStringBody : Nat → Str → Option (Str × Str)
  | 0, _ => none
  | Nat.succ _, [] => none
  | Nat.succ f, c :: rest =>
    if c = '"' then some ([], rest)
    else if c = '\\' then parseEscape f rest
    else if c.toNat < 32 then none
    else do let (s, r') ← parseStringBody f rest; pure (c :: s, r')

/-- The backslash-escape table of `py_scanstring` (the `BACKSLASH` dict
plus the `\uXXXX` branch).  Surrogate pairs are combined as CPython
does; a lone surrogate is outside the model's character type and maps
through `Char.ofNat`'s default. -/
def parseEscape : Nat → Str → Option (Str × Str)
  | 0, _ => none
  | Nat.succ f, esc =>
    match esc with
    | '"' :: r => do let (s, r') ← parseStringBody f r; pure ('"' :: s, r')
    | '\\' :: r => do let (s, r') ← parseStringBody f r; pure ('\\' :: s, r')
    | '/' :: r => do let (s, r') ← parseStringBody f r; pure ('/' :: s, r')
    | 'b' :: r => do let (s, r') ← parseStringBody f r; pure ('\x08' :: s, r')
    | 'f' :: r => do let (s, r') ← parseStringBody f r; pure ('\x0c' :: s, r')
    | 'n' :: r => do let (s, r') ← parseStringBody f r; pure ('\n' :: s, r')
    | 'r' :: r => do let (s, r') ← parseStringBody f r; pure ('\r' :: s, r')
    | 't' :: r => do let (s, r') ← parseStringBody f r; pure ('\t' :: s, r')
    | 'u' :: h1 :: h2 :: h3 :: h4 :: '\\' :: 'u' :: g1 :: g2 :: g3 :: g4 :: r2 => do
      let u ← hex4Val h1 h2 h3 h4
      if 55296 ≤ u && u ≤ 56319 then
        let u2 ← hex4Val g1 g2 g3 g4
        if 56320 ≤ u2 && u2 ≤ 57343 then
          let (s, r') ← parseStringBody f r2
          pure (Char.ofNat (65536 + (u - 55296) * 1024 + (u2 - 56320)) :: s, r')
        else
          let (s, r') ← parseStringBody f ('\\' :: 'u' :: g1 :: g2 :: g3 :: g4 :: r2)
          pure (Char.ofNat u :: s, r')
      else
        let (s, r') ← parseStringBody f ('\\' :: 'u' :: g1 :: g2 :: g3 :: g4 :: r2)
        pure (Char.ofNat u :: s, r')
    | 'u' :: h1 :: h2 :: h3 :: h4 :: r => do
      let u ← hex4Val h1 h2 h3 h4
      let (s, r') ← parseStringBody f r
      pure (Char.ofNat u :: s, r')
    | _ => none

end

/-- Numeric value of a run of decimal digits. -/
def digitsVal (ds : Str) : Nat := ds.foldl (fun a c => 10 * a + (c.toNat - 48)) 0

/-- The integer part of `NUMBER_RE`: `0`, or a nonzero digit followed by
the longest run of digits.  Leading zeros stop after the `0`, as the
regular expression does. -/
def parseUIntTok : Str → Option (Nat × Str)
  | [] => none
  | c :: rest =>
    if c = '0' then some (0, rest)
    else if isDigitC c then
      some (digitsVal (c :: rest.takeWhile isDigitC), rest.dropWhile isDigitC)
    else none

/-- A JSON number restricted to the integer alternative of `NUMBER_RE`. -/
def parseNum : Str → Option (J × Str)
  | [] => none
  | c :: rest =>
    if c = '-' then (parseUIntTok rest).map (fun p => (J.int (-(p.1 : Int)), p.2))
    else (parseUIntTok (c :: rest)).map (fun p => (J.int (p.1 : Int), p.2))

/-- Python dict insertion: an existing key keeps its position and takes
the new value, a new key is appended.  `dict(pairs)` is a left fold of
this over the parsed pairs. -/
def dictInsert (kvs : List (Str × J)) (k : Str) (v : J) : List (Str × J) :=
  if kvs.any (fun kv => kv.1 = k) then
    kvs.map (fun kv => if kv.1 = k then (kv.1, v) else kv)
  else kvs ++ [(k, v)]

mutual

/-- `scan_once`: one JSON value at the head of the input (no leading
whitespace), returning it with the unconsumed remainder. -/
def parseVal : Nat → Str → Option (J × Str)
  | 0, _ => none
  | Nat.succ f, s =>
    match s with
    | [] => none
    | c :: rest =>
      if c = 'n' then
        match rest with
        | 'u' :: 'l' :: 'l' :: r => some (.null, r)
        | _ => none
      else if c = 't' then
        match rest with
        | 'r' :: 'u' :: 'e' :: r => some (.bool true, r)
        | _ => none
      else if c = 'f' then
        match rest with
        | 'a' :: 'l' :: 's' :: 'e' :: r => some (.bool false, r)
        | _ => none
      else if c = '"' then (parseStringBody (2 * rest.length + 2) rest).map (fun p => (J.str p.1, p.2))
      else if c = '[' then (parseArrItems f (skipWs rest)).map (fun p => (J.arr p.1, p.2))
      else if c = '{' then (parseObjItems f (skipWs rest)).map (fun p => (J.obj p.1, p.2))
      else parseNum (c :: rest)

/-- `JSONArray` directly after the bracket and whitespace: the empty
array, or the first item followed by the comma-separated tail. -/
def parseArrItems : Nat → Str → Option (List J × Str)
  | 0, _ => none
  | Nat.succ f, s =>
    match s with
    | [] => none
    | c :: rest =>
      if c = ']' then some ([], rest)
      else do
        let (v, r) ← parseVal f (c :: rest)
        let (vs, r2) ← parseArrTail f (skipWs r)
        pure (v :: vs, r2)

/-- `JSONArray`'s loop after one item: a closing bracket ends the array,
a comma is followed by the next item. -/
def parseArrTail : Nat → Str → Option (List J × Str)
  | 0, _ => none
  | Nat.succ f, s =>
    match s with
    | [] => none
    | c :: rest =>
      if c = ']' then some ([], rest)
      else if c = ',' then do
        let (v, r) ← parseVal f (skipWs rest)
        let (vs, r2) ← parseArrTail f (skipWs r)
        pure (v :: vs, r2)
      else none

/-- `JSONObject` directly after the brace and whitespace: the empty
object, or the first `"key": value` pair followed by the tail. -/
def parseObjItems : Nat → Str → Option (List (Str × J) × Str)
  | 0, _ => none
  | Nat.succ f, s =>
    match s with
    | [] => none
    | c :: rest =>
      if c = '}' then some ([], rest)
      else if c = '"' then do
        let (k, r) ← parseStringBody (2 * rest.length + 2) rest
        match skipWs r with
        | ':' :: r2 => do
          let (v, r3) ← parseVal f (skipWs r2)
          parseObjTail f (skipWs r3) (dictInsert [] k v)
        | _ => none
      else none

/-- `JSONObject`'s loop after one pair, folding pairs into the dict. -/
def parseObjTail : Nat → Str → List (Str × J) → Option (List (Str × J) × Str)
  | 0, _, _ => none
  | Nat.succ f, s, acc =>
    match s with
    | [] => none
    | c :: rest =>
      if c = '}' then some (acc, rest)
      else if c = ',' then
        match skipWs rest with
        | '"' :: r => do
          let (k, r2) ← parseStringBody (2 * r.length + 2) r
          match skipWs r2 with
          | ':' :: r3 => do
            let (v, r4) ← parseVal f (skipWs r3)
            parseObjTail f (skipWs r4) (dictInsert acc k v)
          | _ => none
        | _ => none
      else none

end

/-- `json.loads`: strip leading whitespace, scan one value, require that
only whitespace follows (`Extra data` otherwise). -/
def loads (s : Str) : Option J :=
  match parseVal (s.length + 1) (skipWs s) with
  | some (v, rest) => if skipWs rest = [] then some v else none
  | none => none

/-! ## Python string helpers used by `receive` and `connect` -/

/-- `str.strip()` with no argument (ASCII whitespace portion). -/
def pyStrip (s : Str) : Str := ((s.dropWhile isPyWs).reverse.dropWhile isPyWs).reverse

/-- `str.split('\n')`: separators delimit fields, empty fields kept. -/
def pySplit : Str → List Str
  | [] => [[]]
  | c :: rest =>
    if c = '\n' then [] :: pySplit rest
    else
      match pySplit rest with
      | [] => [[c]]
      | h :: t => (c :: h) :: t

/-! ## The `JSONBusClient` state and operations (`src/jsonbus.py`) -/

/-- The asyncio `StreamWriter` surface the client consults. -/
structure Writer where
  isClosing : Bool
deriving Repr

/-- The client fields the modelled operations read and write:
`self._writer` (presence and `is_closing()`), `self.system_name`
(a Python value: `none` is Python `None`), and `self._message_buffer`. -/
structure ClientState where
  writer : Option Writer
  system_name : Option J
  messageBuffer : List J
deriving Repr

/-- Field values set by `__init__`. -/
def initState : ClientState := { writer := none, system_name := none, messageBuffer := [] }

/-- The `require_connection` decorator's guard: the wrapped method body
runs only when this holds; otherwise the wrapper prints and returns
`None` (the failure sentinel). -/
def require_connection (s : ClientState) : Bool :=
  match s.writer with
  | none => false
  | some w =>
    match s.system_name with
    | none => false
    | some _ => !w.isClosing

/-- Python truthiness of a JSON-decoded value. -/
def jTruthy : J → Bool
  | .null => false
  | .bool b => b
  | .int n => decide (n ≠ 0)
  | .str s => decide (s ≠ [])
  | .arr xs => !xs.isEmpty
  | .obj kvs => !kvs.isEmpty

/-- Truthiness of `self.system_name` (`None` is falsy). -/
def truthyName : Option J → Bool
  | none => false
  | some v => jTruthy v

/-- `key in dict`. -/
def hasKey (kvs : List (Str × J)) (k : Str) : Bool := kvs.any (fun kv => kv.1 = k)

/-- `dict.get(key)`, collapsing a JSON `null` value to Python `None`. -/
def pyGet (kvs : List (Str × J)) (k : Str) : Option J :=
  match kvs.lookup k with
  | some J.null => none
  | some v => some v
  | none => none

/-- The outcome of the 5-second handshake read in `connect`. -/
inductive Handshake where
  | payload (data : Str)
  | timeout

/-- `connect` after the socket opens: read the welcome with a timeout,
parse it, and record `system_name`.  Timeout and `JSONDecodeError` are
caught (identity becomes `None`); a welcome that parses to a non-object
raises `AttributeError` out of `connect` (modelled as `.error`).
Returns the new state and the returned `self.system_name`. -/
def connect (s : ClientState) (h : Handshake) : Except Unit (ClientState × Option J) :=
  let opened : ClientState := { s with writer := some ⟨false⟩ }
  match h with
  | .timeout => .ok ({ opened with system_name := none }, none)
  | .payload d =>
    match loads (pyStrip d) with
    | some (J.obj kvs) =>
      let sn := pyGet kvs ("system_name".toList)
      .ok ({ opened with system_name := sn }, sn)
    | some _ => .error ()
    | none => .ok ({ opened with system_name := none }, none)

/-- `close`: truthy writer → close it and null out reader/writer; else no-op. -/
def close (s : ClientState) : ClientState :=
  match s.writer with
  | some _ => { s with writer := none }
  | none => s

/-- The `src` auto-fill at the top of `send`:
`use_system_src and self.system_name and "src" not in message`. -/
def injectSrc (sysname : Option J) (use_system_src : Bool) (m : List (Str × J)) : List (Str × J) :=
  if use_system_src && truthyName sysname && !hasKey m ("src".toList) then
    match sysname with
    | some v => m ++ [("src".toList, v)]
    | none => m
  else m

/-- The bytes `send` writes: `json.dumps(message) + "\n"`, UTF-8. -/
def sendBytes (sysname : Option J) (m : List (Str × J)) (use_system_src : Bool) : Str :=
  dumps (J.obj (injectSrc sysname use_system_src m)) ++ ['\n']

/-- `send`: under the decorator's guard, write the encoded message and
return Python `None`; when the guard fails, write nothing.  The result
is `some bytesWritten`, or `none` for the not-connected sentinel path. -/
def send (s : ClientState) (m : List (Str × J)) (use_system_src : Bool) : Option Str :=
  if require_connection s then some (sendBytes s.system_name m use_system_src) else none

/-- The control dict `subscribe` builds: `if messages:` chooses between
`subscribe` with the list and `subscribe_all`. -/
def subscribeCmd (messages : Option (List Str)) : List (Str × J) :=
  match messages with
  | some l =>
    if l ≠ [] then
      [("command".toList, J.str ("subscribe".toList)), ("messages".toList, J.arr (l.map J.str))]
    else [("command".toList, J.str ("subscribe_all".toList))]
  | none => [("command".toList, J.str ("subscribe_all".toList))]

/-- `subscribe` (decorated): guard, then `send(cmd, use_system_src=False)`. -/
def subscribe (s : ClientState) (messages : Option (List Str)) : Option Str :=
  if require_connection s then send s (subscribeCmd messages) false else none

/-- Insertion-ordered model of `set.add`. -/
def setAdd (acc : List Str) (x : Str) : List Str := if x ∈ acc then acc else acc ++ [x]

/-- Insertion-ordered model of `set.update(iterable)`. -/
def setUnion (acc : List Str) (l : List Str) : List Str := l.foldl setAdd acc

/-- `run`'s aggregation: `for _, msg_filter in self._callbacks: if
msg_filter: all_messages.update(msg_filter)` (a falsy filter — `None` or
the empty list — contributes nothing). -/
def collectMessages (cbs : List (Option (List Str))) : List Str :=
  cbs.foldl
    (fun acc f =>
      match f with
      | some l => if l ≠ [] then setUnion acc l else acc
      | none => acc)
    []

/-- The subscription control dict `run` sends at startup:
`if all_messages: await self.subscribe(list(all_messages))`, composed
with `subscribe`'s branch; `none` when no command is sent at all. -/
def runSubscribeCommand (cbs : List (Option (List Str))) : Option (List (Str × J)) :=
  let all := collectMessages cbs
  if all ≠ [] then some (subscribeCmd (some all)) else none

/-- `receive`'s per-read decode: split the stripped text on newlines,
`json.loads` each nonempty line, drop lines that fail to decode. -/
def parseLines (lines : List Str) : List J :=
  lines.filterMap (fun line => if line ≠ [] then loads line else none)

/-- One call to `receive`, given the buffer and what the socket read
returns (`none` models a timeout, `some []` an empty read): pop a
buffered message if any, otherwise decode the read into the buffer and
pop the first message. -/
def receiveStep (buffer : List J) (read : Option Str) : Option J × List J :=
  match buffer with
  | m :: rest => (some m, rest)
  | [] =>
    match read with
    | none => (none, [])
    | some [] => (none, [])
    | some data =>
      match parseLines (pySplit (pyStrip data)) with
      | m :: rest => (some m, rest)
      | [] => (none, [])

/-- `n` successive calls to `receive`: a read is consumed only when the
buffer is empty; with reads exhausted the read times out. -/
def receiveCalls : Nat → List J → List (Option Str) → List (Option J)
  | 0, _, _ => []
  | Nat.succ n, m :: buf, reads => some m :: receiveCalls n buf reads
  | Nat.succ n, [], [] => none :: receiveCalls n [] []
  | Nat.succ n, [], r :: reads =>
    let p := receiveStep [] r
    p.1 :: receiveCalls n p.2 reads

/-- A registered handler, as the dispatch loop sees it: its filter and
whether invoking it raises. -/
structure Callback where
  filter : Option (List Str)
  raises : Bool

/-- The dispatch condition at line 179:
`msg_filter is None or msg.get("abbrev") in msg_filter`.  A missing
`abbrev`, or a non-string value, is `in` no list of strings. -/
def filterMatches (flt : Option (List Str)) (m : List (Str × J)) : Bool :=
  match flt with
  | none => true
  | some fs =>
    match m.lookup ("abbrev".toList) with
    | some (J.str a) => fs.contains a
    | _ => false

/-- The `for callback, msg_filter in self._callbacks` loop for one
message: indices invoked in order; a raising handler's exception
escapes the `for` into the loop's `except`, so it is the last one
invoked and the flag comes back `true`. -/
def dispatchMsg : List (Nat × Callback) → List (Str × J) → List Nat × Bool
  | [], _ => ([], false)
  | (i, cb) :: rest, m =>
    if filterMatches cb.filter m then
      if cb.raises then ([i], true)
      else
        let p := dispatchMsg rest m
        (i :: p.1, p.2)
    else dispatchMsg rest m

/-- `_callback_loop` over a sequence of received messages: each cycle
receives one message, dispatches it if truthy (`if msg:`), and — because
the `try`/`except Exception` wraps the whole cycle and ends in `break` —
stops the loop after the first handler exception.  Each element of the
result records one cycle's message and the handler indices invoked. -/
def callbackLoopRun (cbs : List Callback) : List (List (Str × J)) → List (List (Str × J) × List Nat)
  | [] => []
  | m :: ms =>
    if !m.isEmpty then
      let p := dispatchMsg cbs.enum m
      (m, p.1) :: (if p.2 then [] else callbackLoopRun cbs ms)
    else (m, []) :: callbackLoopRun cbs ms

/-- What one cycle of `_run_periodic_task`'s body does. -/
inductive TaskOutcome where
  | ok
  | raises
  | cancelledInSleep (d : Nat)

/-- `_run_periodic_task` on a script of invocation outcomes, from time
`t`: a normal invocation is followed by `asyncio.sleep(interval)`; an
invocation that raises is caught by `except Exception`, logged, and the
loop re-enters with no sleep; `CancelledError` during the sleep (after
`d < interval` of it) breaks out.  Invocations are modelled as
instantaneous.  Returns the invocation start times and, when cancelled,
the exit time. -/
def runPeriodic (interval : Nat) (t : Nat) : List TaskOutcome → List Nat × Option Nat
  | [] => ([], none)
  | .ok :: rest =>
    let p := runPeriodic interval (t + interval) rest
    (t :: p.1, p.2)
  | .raises :: rest =>
    let p := runPeriodic interval t rest
    (t :: p.1, p.2)
  | .cancelledInSleep d :: _ => ([t], some (t + d))

/-- A Python value passed as `add_callback`'s `messages` argument. -/
inductive PyVal where
  | none
  | bool (b : Bool)
  | int (n : Int)
  | str (s : Str)
  | list (xs : List PyVal)
deriving Repr

/-- `isinstance(x, str)`. -/
def isStrVal : PyVal → Bool
  | .str _ => true
  | _ => false

/-- The string content of a `PyVal.str`. -/
def strOf : PyVal → Str
  | .str s => s
  | _ => []

/-- `add_callback`: reject a non-callable callback, reject `messages`
unless it is a list whose elements are all strings, else append the
registration.  Registrations carry the filter as `some strings`. -/
def add_callback (callbacks : List (Option (List Str))) (callbackIsCallable : Bool)
    (messages : PyVal) : Except Str (List (Option (List Str))) :=
  if !callbackIsCallable then Except.error ("callback must be a callable function".toList)
  else
    match messages with
    | .list xs =>
      if xs.all isStrVal then Except.ok (callbacks ++ [some (xs.map strOf)])
      else Except.error ("messages must be a list of valid message names".toList)
    | _ => Except.error ("messages must be a list of valid message names".toList)


/-! ## Verification infrastructure: character classes and digits -/

theorem toNat_ofNat_small {m : Nat} (h : m < 55296) : (Char.ofNat m).toNat = m := by
  have hv : Nat.isValidChar m := Or.inl h
  simp [Char.ofNat, Char.ofNatAux, Char.toNat, hv]
  rfl

theorem char_eq_iff_toNat {c d : Char} : c = d ↔ c.toNat = d.toNat := by
  constructor
  · intro h; rw [h]
  · intro h
    apply Char.eq_of_val_eq
    apply UInt32.eq_of_toBitVec_eq
    exact BitVec.eq_of_toNat_eq h

theorem isJsonWs_iff {c : Char} :
    isJsonWs c = true ↔ (c.toNat = 32 ∨ c.toNat = 9 ∨ c.toNat = 10 ∨ c.toNat = 13) := by
  simp [isJsonWs, char_eq_iff_toNat]
  tauto

theorem isPyWs_iff {c : Char} :
    isPyWs c = true ↔
      (c.toNat = 32 ∨ c.toNat = 9 ∨ c.toNat = 10 ∨ c.toNat = 13 ∨ c.toNat = 11 ∨ c.toNat = 12) := by
  simp [isPyWs, char_eq_iff_toNat]
  tauto

theorem digit_not_jsonWs {c : Char} (h : isDigitC c = true) : isJsonWs c = false := by
  simp [isDigitC] at h
  rw [Bool.eq_false_iff]
  intro hw
  rcases isJsonWs_iff.mp hw with h1 | h1 | h1 | h1 <;> omega

theorem digit_not_pyWs {c : Char} (h : isDigitC c = true) : isPyWs c = false := by
  simp [isDigitC] at h
  rw [Bool.eq_false_iff]
  intro hw
  rcases isPyWs_iff.mp hw with h1 | h1 | h1 | h1 | h1 | h1 <;> omega

theorem digitsVal_snoc (l : Str) (c : Char) :
    digitsVal (l ++ [c]) = 10 * digitsVal l + (c.toNat - 48) := by
  simp [digitsVal, List.foldl_append]

theorem natDigitsAux_spec (fuel : Nat) :
    ∀ n, n < fuel →
      (∀ c ∈ natDigitsAux fuel n, isDigitC c = true) ∧ digitsVal (natDigitsAux fuel n) = n ∧
        natDigitsAux fuel n ≠ [] ∧ (0 < n → (natDigitsAux fuel n).head? ≠ some '0') := by
  induction fuel with
  | zero => omega
  | succ fuel ih =>
    intro n hn
    by_cases h : n < 10
    · rw [natDigitsAux, if_pos h]
      have ht : (Char.ofNat (48 + n)).toNat = 48 + n := toNat_ofNat_small (by omega)
      refine ⟨?_, ?_, ?_, ?_⟩
      · intro c hc
        simp only [List.mem_singleton] at hc
        subst hc
        simp [isDigitC, ht]
        omega
      · simp [digitsVal, ht]
      · simp
      · intro hpos hc
        simp only [List.head?_cons] at hc
        have h2 := char_eq_iff_toNat.mp (Option.some.inj hc)
        rw [ht] at h2
        have : ('0' : Char).toNat = 48 := rfl
        omega
    · have hlt : n / 10 < fuel := by
        have h1 : n / 10 < n := Nat.div_lt_self (by omega) (by omega)
        omega
      obtain ⟨ihd, ihv, ihne, ihhd⟩ := ih (n / 10) hlt
      rw [natDigitsAux, if_neg h]
      have ht : (Char.ofNat (48 + n % 10)).toNat = 48 + n % 10 := toNat_ofNat_small (by omega)
      refine ⟨?_, ?_, ?_, ?_⟩
      · intro c hc
        rcases List.mem_append.mp hc with hc | hc
        · exact ihd c hc
        · simp only [List.mem_singleton] at hc
          subst hc
          simp [isDigitC, ht]
          omega
      · rw [digitsVal_snoc, ihv, ht]
        omega
      · simp
      · intro hpos
        cases hne : natDigitsAux fuel (n / 10) with
        | nil => exact absurd hne ihne
        | cons a t =>
          have hpos2 : 0 < n / 10 := Nat.div_pos (by omega) (by omega)
          have hh := ihhd hpos2
          rw [hne] at hh
          simpa using hh

theorem natDigits_spec (n : Nat) :
    (∀ c ∈ natDigits n, isDigitC c = true) ∧ digitsVal (natDigits n) = n ∧
      natDigits n ≠ [] ∧ (0 < n → (natDigits n).head? ≠ some '0') :=
  natDigitsAux_spec (n + 1) n (by omega)

/-- The remainder of the input does not continue a digit run. -/
def digitStop (r : Str) : Prop := ∀ c, r.head? = some c → isDigitC c = false

theorem takeWhile_append_all {p : Char → Bool} {l r : Str}
    (hl : ∀ c ∈ l, p c = true) (hr : ∀ c, r.head? = some c → p c = false) :
    (l ++ r).takeWhile p = l ∧ (l ++ r).dropWhile p = r := by
  induction l with
  | nil =>
    cases r with
    | nil => simp
    | cons c t =>
      have hc := hr c rfl
      simp [List.takeWhile_cons, List.dropWhile_cons, hc]
  | cons a l ih =>
    have ha : p a = true := hl a (by simp)
    obtain ⟨h1, h2⟩ := ih (fun c hc => hl c (by simp [hc]))
    simp [List.takeWhile_cons, List.dropWhile_cons, ha, h1, h2]

theorem parseUIntTok_natDigits {n : Nat} {r : Str} (hr : digitStop r) :
    parseUIntTok (natDigits n ++ r) = some (n, r) := by
  obtain ⟨hd, hv, hne, hhd⟩ := natDigits_spec n
  by_cases h0 : n = 0
  · subst h0
    have he : natDigits 0 = ['0'] := rfl
    rw [he]
    simp [parseUIntTok]
  · cases hne2 : natDigits n with
    | nil => exact absurd hne2 hne
    | cons a t =>
      rw [hne2] at hd hv hhd
      have ha : isDigitC a = true := hd a (by simp)
      have ha0 : ¬(a = '0') := fun hh => (hhd (by omega)) (by simp [hh])
      have ht : ∀ c ∈ t, isDigitC c = true := fun c hc => hd c (by simp [hc])
      obtain ⟨htake, hdrop⟩ := takeWhile_append_all ht hr
      simp only [List.cons_append, parseUIntTok, if_neg ha0, if_pos ha, htake, hdrop, hv]

theorem intToStr_chars (i : Int) : ∀ c ∈ intToStr i, isDigitC c = true ∨ c = '-' := by
  intro c hc
  obtain ⟨hd, _, _, _⟩ := natDigits_spec i.natAbs
  rw [intToStr] at hc
  by_cases hneg : i < 0
  · rw [if_pos hneg] at hc
    rcases List.mem_cons.mp hc with hc | hc
    · exact Or.inr hc
    · exact Or.inl (hd c hc)
  · rw [if_neg hneg] at hc
    exact Or.inl (hd c hc)

theorem intToStr_ne_nil (i : Int) : intToStr i ≠ [] := by
  obtain ⟨_, _, hne, _⟩ := natDigits_spec i.natAbs
  rw [intToStr]
  by_cases hneg : i < 0
  · simp [if_pos hneg]
  · simpa [if_neg hneg] using hne

theorem parseNum_intToStr (i : Int) {r : Str} (hr : digitStop r) :
    parseNum (intToStr i ++ r) = some (J.int i, r) := by
  by_cases hneg : i < 0
  · rw [intToStr, if_pos hneg]
    simp only [List.cons_append, parseNum, if_pos rfl]
    rw [parseUIntTok_natDigits hr]
    have hi : -((i.natAbs : Int)) = i := by omega
    simp [hi]
    rw [abs_of_neg hneg]
    omega
  · rw [intToStr, if_neg hneg]
    obtain ⟨hd, _, hne, _⟩ := natDigits_spec i.natAbs
    cases hne2 : natDigits i.natAbs with
    | nil => exact absurd hne2 hne
    | cons a t =>
      have ha : isDigitC a = true := by rw [hne2] at hd; exact hd a (by simp)
      have ham : ¬(a = '-') := by
        intro hh
        rw [hh] at ha
        simp [isDigitC] at ha
      have hp := parseUIntTok_natDigits (n := i.natAbs) (r := r) hr
      rw [hne2] at hp
      simp only [List.cons_append] at hp ⊢
      rw [parseNum, if_neg ham, hp]
      have hi : ((i.natAbs : Int)) = i := by omega
      simp [hi]

/-! ## The string-literal roundtrip -/

/-- Printable ASCII: the characters `json.dumps` leaves unescaped or
escapes with a two-character short escape. -/
def asciiOK (c : Char) : Bool := 32 ≤ c.toNat && c.toNat ≤ 126

theorem escapeChar_printable {c : Char} (h : asciiOK c = true) :
    (c = '"' ∧ escapeChar c = ['\\', '"']) ∨ (c = '\\' ∧ escapeChar c = ['\\', '\\']) ∨
      (c ≠ '"' ∧ c ≠ '\\' ∧ escapeChar c = [c]) := by
  simp only [asciiOK, Bool.and_eq_true, decide_eq_true_eq] at h
  by_cases h1 : c = '"'
  · exact Or.inl ⟨h1, by rw [escapeChar, if_pos h1]⟩
  by_cases h2 : c = '\\'
  · exact Or.inr (Or.inl ⟨h2, by rw [escapeChar, if_neg h1, if_pos h2]⟩)
  refine Or.inr (Or.inr ⟨h1, h2, ?_⟩)
  have hn : ¬(c = '\n') := fun hh => by
    have h10 := char_eq_iff_toNat.mp hh
    rw [show ('\n').toNat = 10 from rfl] at h10
    omega
  have hr : ¬(c = '\r') := fun hh => by
    have h13 := char_eq_iff_toNat.mp hh
    rw [show ('\r').toNat = 13 from rfl] at h13
    omega
  have ht : ¬(c = '\t') := fun hh => by
    have h9 := char_eq_iff_toNat.mp hh
    rw [show ('\t').toNat = 9 from rfl] at h9
    omega
  have hb : ¬(c = '\x08') := fun hh => by
    have h8 := char_eq_iff_toNat.mp hh
    rw [show ('\x08').toNat = 8 from rfl] at h8
    omega
  have hf : ¬(c = '\x0c') := fun hh => by
    have h12 := char_eq_iff_toNat.mp hh
    rw [show ('\x0c').toNat = 12 from rfl] at h12
    omega
  have hrange : ¬((c.toNat < 32 || 126 < c.toNat) = true) := by
    simp only [Bool.or_eq_true, decide_eq_true_eq]
    omega
  rw [escapeChar, if_neg h1, if_neg h2, if_neg hn, if_neg hr, if_neg ht, if_neg hb, if_neg hf,
    if_neg hrange]

theorem parseStringBody_escStr {s : Str} :
    ∀ f r, (∀ c ∈ s, asciiOK c = true) → 2 * s.length + 1 ≤ f →
      parseStringBody f (escStr s ++ '"' :: r) = some (s, r) := by
  induction s with
  | nil =>
    intro f r _ hf
    obtain ⟨f1, rfl⟩ : ∃ f1, f = f1 + 1 := ⟨f - 1, by omega⟩
    rfl
  | cons c t ih =>
    intro f r hs hf
    have hc := hs c (by simp)
    have hts : ∀ d ∈ t, asciiOK d = true := fun d hd => hs d (by simp [hd])
    have hesc : escStr (c :: t) = escapeChar c ++ escStr t := by simp [escStr]
    simp only [List.length_cons] at hf
    rcases escapeChar_printable hc with ⟨hq, he⟩ | ⟨hb, he⟩ | ⟨h1, h2, he⟩
    · subst hq
      obtain ⟨f2, rfl⟩ : ∃ f2, f = f2 + 2 := ⟨f - 2, by omega⟩
      rw [hesc, he]
      calc parseStringBody (f2 + 2) ((['\\', '"'] ++ escStr t) ++ '"' :: r)
          = (parseStringBody f2 (escStr t ++ '"' :: r)).bind (fun p => some ('"' :: p.1, p.2)) :=
            rfl
        _ = some ('"' :: t, r) := by rw [ih f2 r hts (by omega)]; rfl
    · subst hb
      obtain ⟨f2, rfl⟩ : ∃ f2, f = f2 + 2 := ⟨f - 2, by omega⟩
      rw [hesc, he]
      calc parseStringBody (f2 + 2) ((['\\', '\\'] ++ escStr t) ++ '"' :: r)
          = (parseStringBody f2 (escStr t ++ '"' :: r)).bind (fun p => some ('\\' :: p.1, p.2)) :=
            rfl
        _ = some ('\\' :: t, r) := by rw [ih f2 r hts (by omega)]; rfl
    · obtain ⟨f1, rfl⟩ : ∃ f1, f = f1 + 1 := ⟨f - 1, by omega⟩
      rw [hesc, he]
      simp only [List.singleton_append, List.cons_append, List.nil_append]
      have h3 : ¬(c.toNat < 32) := by
        simp only [asciiOK, Bool.and_eq_true, decide_eq_true_eq] at hc
        omega
      simp only [parseStringBody, if_neg h1, if_neg h2, if_neg h3]
      rw [ih f1 r hts (by omega)]
      rfl

/-! ## Wellformed messages and parser fuel measures -/

mutual

/-- Messages in the roundtrip class: every string (key or value) is
printable ASCII and every object has duplicate-free keys, recursively.
Printable ASCII is the fragment whose `json.dumps` escapes are the
two-character short escapes handled below; duplicate-free keys reflect
that a Python dict cannot hold duplicates. -/
def jOK : J → Bool
  | .null => true
  | .bool _ => true
  | .int _ => true
  | .str s => s.all asciiOK
  | .arr xs => jOKItems xs
  | .obj kvs => jOKFields kvs

/-- `jOK` for every array element. -/
def jOKItems : List J → Bool
  | [] => true
  | x :: xs => jOK x && jOKItems xs

/-- `jOK` keys and values, and no key repeated later in the list. -/
def jOKFields : List (Str × J) → Bool
  | [] => true
  | (k, v) :: kvs => k.all asciiOK && jOK v && !(kvs.any (fun kv => kv.1 = k)) && jOKFields kvs

end

mutual

/-- Fuel adequate for `parseVal` on `dumps` output. -/
def jsize : J → Nat
  | .null => 1
  | .bool _ => 1
  | .int _ => 1
  | .str _ => 1
  | .arr xs => 1 + jsizeItems xs
  | .obj kvs => 1 + jsizeFields kvs

/-- Fuel adequate for `parseArrItems` after the opening bracket. -/
def jsizeItems : List J → Nat
  | [] => 1
  | x :: xs => 1 + max (jsize x) (jsizeTailM xs)

/-- Fuel adequate for `parseArrTail` after one item. -/
def jsizeTailM : List J → Nat
  | [] => 1
  | x :: xs => 1 + max (jsize x) (jsizeTailM xs)

/-- Fuel adequate for `parseObjItems` after the opening brace. -/
def jsizeFields : List (Str × J) → Nat
  | [] => 1
  | kv :: kvs => 1 + max (jsize kv.2) (jsizeFTailM kvs)

/-- Fuel adequate for `parseObjTail` after one field. -/
def jsizeFTailM : List (Str × J) → Nat
  | [] => 1
  | kv :: kvs => 1 + max (jsize kv.2) (jsizeFTailM kvs)

end

/-! ## Shape facts about `dumps` output -/

theorem skipWs_eq_self {l : Str} (h : ∀ c, l.head? = some c → isJsonWs c = false) :
    skipWs l = l := by
  cases l with
  | nil => rfl
  | cons c t => simp [skipWs, h c rfl]

theorem dumps_head_facts (j : J) :
    ∃ c t, dumps j = c :: t ∧ isJsonWs c = false ∧ isPyWs c = false ∧
      c ≠ ']' ∧ c ≠ '}' ∧ c ≠ ',' ∧ c ≠ ':' := by
  cases j with
  | null => exact ⟨'n', _, rfl, by decide, by decide, by decide, by decide, by decide, by decide⟩
  | bool b =>
    cases b with
    | true => exact ⟨'t', _, rfl, by decide, by decide, by decide, by decide, by decide, by decide⟩
    | false => exact ⟨'f', _, rfl, by decide, by decide, by decide, by decide, by decide, by decide⟩
  | str s2 => exact ⟨'"', _, rfl, by decide, by decide, by decide, by decide, by decide, by decide⟩
  | arr xs => exact ⟨'[', _, rfl, by decide, by decide, by decide, by decide, by decide, by decide⟩
  | obj kvs => exact ⟨'{', _, rfl, by decide, by decide, by decide, by decide, by decide, by decide⟩
  | int i =>
    cases hne : intToStr i with
    | nil => exact absurd hne (intToStr_ne_nil i)
    | cons c t =>
      have hc : isDigitC c = true ∨ c = '-' := by
        apply intToStr_chars
        rw [hne]
        simp
      have hd : dumps (J.int i) = c :: t := by rw [dumps, hne]
      rcases hc with hc | hc
      · simp only [isDigitC, Bool.and_eq_true, decide_eq_true_eq] at hc
        refine ⟨c, t, hd, ?_, ?_, ?_, ?_, ?_, ?_⟩
        · rw [Bool.eq_false_iff]
          intro hw
          rcases isJsonWs_iff.mp hw with h1 | h1 | h1 | h1 <;> omega
        · rw [Bool.eq_false_iff]
          intro hw
          rcases isPyWs_iff.mp hw with h1 | h1 | h1 | h1 | h1 | h1 <;> omega
        · intro hh
          have := char_eq_iff_toNat.mp hh
          rw [show (']').toNat = 93 from rfl] at this
          omega
        · intro hh
          have := char_eq_iff_toNat.mp hh
          rw [show ('\x7d').toNat = 125 from rfl] at this
          omega
        · intro hh
          have := char_eq_iff_toNat.mp hh
          rw [show (',').toNat = 44 from rfl] at this
          omega
        · intro hh
          have := char_eq_iff_toNat.mp hh
          rw [show (':').toNat = 58 from rfl] at this
          omega
      · subst hc
        exact ⟨'-', t, hd, by decide, by decide, by decide, by decide, by decide, by decide⟩

theorem skipWs_dumps (j : J) (w : Str) : skipWs (dumps j ++ w) = dumps j ++ w := by
  obtain ⟨c, t, hd, hws, _, _, _, _, _⟩ := dumps_head_facts j
  apply skipWs_eq_self
  intro d hdd
  rw [hd] at hdd
  simp only [List.cons_append, List.head?_cons] at hdd
  cases Option.some.inj hdd
  exact hws

theorem dumpsTail_shape (xs : List J) :
    dumpsTail xs = [']'] ∨ ∃ w, dumpsTail xs = ',' :: ' ' :: w := by
  cases xs with
  | nil => exact Or.inl rfl
  | cons y ys => exact Or.inr ⟨_, rfl⟩

theorem dumpsFTail_shape (kvs : List (Str × J)) :
    dumpsFTail kvs = ['\x7d'] ∨ ∃ w, dumpsFTail kvs = ',' :: ' ' :: w := by
  cases kvs with
  | nil => exact Or.inl rfl
  | cons kv kvs =>
    obtain ⟨k, v⟩ := kv
    exact Or.inr ⟨_, rfl⟩

theorem digitStop_dumpsTail (xs : List J) (r : Str) : digitStop (dumpsTail xs ++ r) := by
  intro c hc
  rcases dumpsTail_shape xs with h | ⟨w, h⟩ <;>
    · rw [h] at hc
      simp only [List.cons_append, List.head?_cons] at hc
      cases Option.some.inj hc
      decide

theorem digitStop_dumpsFTail (kvs : List (Str × J)) (r : Str) : digitStop (dumpsFTail kvs ++ r) := by
  intro c hc
  rcases dumpsFTail_shape kvs with h | ⟨w, h⟩ <;>
    · rw [h] at hc
      simp only [List.cons_append, List.head?_cons] at hc
      cases Option.some.inj hc
      decide

theorem skipWs_dumpsTail (xs : List J) (r : Str) :
    skipWs (dumpsTail xs ++ r) = dumpsTail xs ++ r := by
  apply skipWs_eq_self
  intro c hc
  rcases dumpsTail_shape xs with h | ⟨w, h⟩ <;>
    · rw [h] at hc
      simp only [List.cons_append, List.head?_cons] at hc
      cases Option.some.inj hc
      decide

theorem skipWs_dumpsFTail (kvs : List (Str × J)) (r : Str) :
    skipWs (dumpsFTail kvs ++ r) = dumpsFTail kvs ++ r := by
  apply skipWs_eq_self
  intro c hc
  rcases dumpsFTail_shape kvs with h | ⟨w, h⟩ <;>
    · rw [h] at hc
      simp only [List.cons_append, List.head?_cons] at hc
      cases Option.some.inj hc
      decide

/-! ## Step equations for the scanner, and dict/escape helpers -/

theorem parseVal_quote (f : Nat) (w : Str) :
    parseVal (f + 1) ('"' :: w) =
      (parseStringBody (2 * w.length + 2) w).map (fun p => (J.str p.1, p.2)) := rfl

theorem parseVal_lbrack (f : Nat) (w : Str) :
    parseVal (f + 1) ('[' :: w) =
      (parseArrItems f (skipWs w)).map (fun p => (J.arr p.1, p.2)) := rfl

theorem parseVal_lbrace (f : Nat) (w : Str) :
    parseVal (f + 1) ('\x7b' :: w) =
      (parseObjItems f (skipWs w)).map (fun p => (J.obj p.1, p.2)) := rfl

theorem parseArrItems_cons (f : Nat) (c : Char) (w : Str) (h1 : ¬(c = ']')) :
    parseArrItems (f + 1) (c :: w) = (do
      let (v, r) ← parseVal f (c :: w)
      let (vs, r2) ← parseArrTail f (skipWs r)
      pure (v :: vs, r2)) := by
  simp only [parseArrItems, if_neg h1]

theorem parseArrTail_comma (f : Nat) (w : Str) :
    parseArrTail (f + 1) (',' :: w) = (do
      let (v, r) ← parseVal f (skipWs w)
      let (vs, r2) ← parseArrTail f (skipWs r)
      pure (v :: vs, r2)) := rfl

theorem parseObjItems_quote (f : Nat) (w : Str) :
    parseObjItems (f + 1) ('"' :: w) = (do
      let (k, r) ← parseStringBody (2 * w.length + 2) w
      match skipWs r with
      | ':' :: r2 => do
        let (v, r3) ← parseVal f (skipWs r2)
        parseObjTail f (skipWs r3) (dictInsert [] k v)
      | _ => none) := rfl

theorem parseObjTail_comma (f : Nat) (w : Str) (acc : List (Str × J)) :
    parseObjTail (f + 1) (',' :: w) acc =
      (match skipWs w with
      | '"' :: r => do
        let (k, r2) ← parseStringBody (2 * r.length + 2) r
        match skipWs r2 with
        | ':' :: r3 => do
          let (v, r4) ← parseVal f (skipWs r3)
          parseObjTail f (skipWs r4) (dictInsert acc k v)
        | _ => none
      | _ => none) := rfl

theorem parseObjTail_field (f : Nat) (w : Str) (acc : List (Str × J)) :
    parseObjTail (f + 1) (',' :: ' ' :: '"' :: w) acc = (do
      let (k, r2) ← parseStringBody (2 * w.length + 2) w
      match skipWs r2 with
      | ':' :: r3 => do
        let (v, r4) ← parseVal f (skipWs r3)
        parseObjTail f (skipWs r4) (dictInsert acc k v)
      | _ => none) := rfl

theorem hasKey_append (a b : List (Str × J)) (k : Str) :
    hasKey (a ++ b) k = (hasKey a k || hasKey b k) := by
  simp [hasKey, List.any_append]

theorem dictInsert_notMem {acc : List (Str × J)} {k : Str} (v : J)
    (h : hasKey acc k = false) : dictInsert acc k v = acc ++ [(k, v)] := by
  rw [dictInsert, if_neg]
  rw [hasKey] at h
  simp only [h]
  exact Bool.false_ne_true ∘ id

theorem escStr_length {s : Str} (hs : ∀ c ∈ s, asciiOK c = true) :
    s.length ≤ (escStr s).length := by
  induction s with
  | nil => simp [escStr]
  | cons c t ih =>
    have hc := hs c (by simp)
    have ih2 := ih (fun d hd => hs d (by simp [hd]))
    have hlen : 1 ≤ (escapeChar c).length := by
      rcases escapeChar_printable hc with ⟨_, he⟩ | ⟨_, he⟩ | ⟨_, _, he⟩ <;> simp [he]
    have : escStr (c :: t) = escapeChar c ++ escStr t := by simp [escStr]
    rw [this]
    simp only [List.length_cons, List.length_append]
    omega

theorem digit_ne_of_code {c d : Char} (hc : 48 ≤ c.toNat ∧ c.toNat ≤ 57)
    (hd : d.toNat < 48 ∨ 57 < d.toNat) : c ≠ d := by
  intro hh
  have := char_eq_iff_toNat.mp hh
  omega

/-! ## The roundtrip: `parseVal` inverts `dumps` on wellformed values -/

mutual

theorem parseVal_dumps (j : J) :
    ∀ f r, jOK j = true → jsize j ≤ f → digitStop r →
      parseVal f (dumps j ++ r) = some (j, r) := by
  cases j with
  | null =>
    intro f r _ hf _
    obtain ⟨f1, rfl⟩ : ∃ f1, f = f1 + 1 := ⟨f - 1, by have e : jsize J.null = 1 := rfl; omega⟩
    rfl
  | bool b =>
    intro f r _ hf _
    obtain ⟨f1, rfl⟩ : ∃ f1, f = f1 + 1 := ⟨f - 1, by have e : jsize (J.bool b) = 1 := rfl; omega⟩
    cases b <;> rfl
  | int i =>
    intro f r _ hf hstop
    obtain ⟨f1, rfl⟩ : ∃ f1, f = f1 + 1 := ⟨f - 1, by have e : jsize (J.int i) = 1 := rfl; omega⟩
    cases hne : intToStr i with
    | nil => exact absurd hne (intToStr_ne_nil i)
    | cons c t =>
      have hd : dumps (J.int i) = c :: t := by rw [dumps, hne]
      have hc : isDigitC c = true ∨ c = '-' := by
        apply intToStr_chars
        rw [hne]
        simp
      have hn6 : c ≠ 'n' ∧ c ≠ 't' ∧ c ≠ 'f' ∧ c ≠ '"' ∧ c ≠ '[' ∧ c ≠ '\x7b' := by
        rcases hc with hc | hc
        · simp only [isDigitC, Bool.and_eq_true, decide_eq_true_eq] at hc
          exact ⟨digit_ne_of_code hc (by decide), digit_ne_of_code hc (by decide),
            digit_ne_of_code hc (by decide), digit_ne_of_code hc (by decide),
            digit_ne_of_code hc (by decide), digit_ne_of_code hc (by decide)⟩
        · subst hc
          exact ⟨by decide, by decide, by decide, by decide, by decide, by decide⟩
      obtain ⟨k1, k2, k3, k4, k5, k6⟩ := hn6
      rw [hd]
      simp only [List.cons_append, parseVal, if_neg k1, if_neg k2, if_neg k3, if_neg k4,
        if_neg k5, if_neg k6]
      have hp := parseNum_intToStr i (r := r) hstop
      rw [hne] at hp
      simpa using hp
  | str s2 =>
    intro f r hok hf _
    obtain ⟨f1, rfl⟩ : ∃ f1, f = f1 + 1 := ⟨f - 1, by have e : jsize (J.str s2) = 1 := rfl; omega⟩
    have hok2 : ∀ c ∈ s2, asciiOK c = true := by
      have e : jOK (J.str s2) = s2.all asciiOK := rfl
      rw [e, List.all_eq_true] at hok
      exact fun c hc => hok c hc
    have hshape : dumps (J.str s2) ++ r = '"' :: (escStr s2 ++ '"' :: r) := by
      have e : dumps (J.str s2) = '"' :: escStr s2 ++ ['"'] := rfl
      rw [e]
      simp
    rw [hshape, parseVal_quote]
    rw [parseStringBody_escStr _ r hok2 ?hfu]
    case hfu =>
      have h1 := escStr_length hok2
      simp only [List.length_append, List.length_cons]
      omega
    rfl
  | arr xs =>
    intro f r hok hf _
    obtain ⟨f1, rfl⟩ : ∃ f1, f = f1 + 1 :=
      ⟨f - 1, by have e : jsize (J.arr xs) = 1 + jsizeItems xs := rfl; omega⟩
    have hsz : jsizeItems xs ≤ f1 := by
      have e : jsize (J.arr xs) = 1 + jsizeItems xs := rfl
      omega
    have hokI : jOKItems xs = true := hok
    have hshape : dumps (J.arr xs) ++ r = '[' :: (dumpsItems xs ++ r) := by
      have e : dumps (J.arr xs) = '[' :: dumpsItems xs := rfl
      rw [e]
      rfl
    rw [hshape, parseVal_lbrack]
    have hsk : skipWs (dumpsItems xs ++ r) = dumpsItems xs ++ r := by
      cases xs with
      | nil => rfl
      | cons x xs =>
        have e : dumpsItems (x :: xs) ++ r = dumps x ++ (dumpsTail xs ++ r) := by
          have e2 : dumpsItems (x :: xs) = dumps x ++ dumpsTail xs := rfl
          rw [e2, List.append_assoc]
        rw [e]
        exact skipWs_dumps x _
    rw [hsk, parseArrItems_dumps xs f1 r hokI hsz]
    rfl
  | obj kvs =>
    intro f r hok hf _
    obtain ⟨f1, rfl⟩ : ∃ f1, f = f1 + 1 :=
      ⟨f - 1, by have e : jsize (J.obj kvs) = 1 + jsizeFields kvs := rfl; omega⟩
    have hsz : jsizeFields kvs ≤ f1 := by
      have e : jsize (J.obj kvs) = 1 + jsizeFields kvs := rfl
      omega
    have hokF : jOKFields kvs = true := hok
    have hshape : dumps (J.obj kvs) ++ r = '\x7b' :: (dumpsFields kvs ++ r) := by
      have e : dumps (J.obj kvs) = '\x7b' :: dumpsFields kvs := rfl
      rw [e]
      rfl
    rw [hshape, parseVal_lbrace]
    have hsk : skipWs (dumpsFields kvs ++ r) = dumpsFields kvs ++ r := by
      cases kvs with
      | nil => rfl
      | cons kv kvs =>
        obtain ⟨k, v⟩ := kv
        have e : dumpsFields ((k, v) :: kvs) ++ r =
            '"' :: (escStr k ++ '"' :: ':' :: ' ' :: dumps v ++ dumpsFTail kvs ++ r) := by
          have e2 : dumpsFields ((k, v) :: kvs) =
              '"' :: escStr k ++ '"' :: ':' :: ' ' :: dumps v ++ dumpsFTail kvs := rfl
          rw [e2]
          simp
        rw [e]
        rfl
    rw [hsk, parseObjItems_dumps kvs f1 r hokF hsz]
    rfl

theorem parseArrItems_dumps (xs : List J) :
    ∀ f r, jOKItems xs = true → jsizeItems xs ≤ f →
      parseArrItems f (dumpsItems xs ++ r) = some (xs, r) := by
  cases xs with
  | nil =>
    intro f r _ hf
    obtain ⟨f1, rfl⟩ : ∃ f1, f = f1 + 1 := ⟨f - 1, by have e : jsizeItems ([] : List J) = 1 := rfl; omega⟩
    rfl
  | cons x xs =>
    intro f r hok hf
    obtain ⟨f1, rfl⟩ : ∃ f1, f = f1 + 1 :=
      ⟨f - 1, by have e : jsizeItems (x :: xs) = 1 + max (jsize x) (jsizeTailM xs) := rfl; omega⟩
    have hsz : jsize x ≤ f1 ∧ jsizeTailM xs ≤ f1 := by
      have e : jsizeItems (x :: xs) = 1 + max (jsize x) (jsizeTailM xs) := rfl
      constructor <;> omega
    have hok2 : jOK x = true ∧ jOKItems xs = true := by
      have e : jOKItems (x :: xs) = (jOK x && jOKItems xs) := rfl
      rw [e, Bool.and_eq_true] at hok
      exact hok
    have hshape : dumpsItems (x :: xs) ++ r = dumps x ++ (dumpsTail xs ++ r) := by
      have e : dumpsItems (x :: xs) = dumps x ++ dumpsTail xs := rfl
      rw [e, List.append_assoc]
    obtain ⟨c, t, hd, _, _, hne1, _, _, _⟩ := dumps_head_facts x
    rw [hshape, hd]
    simp only [List.cons_append]
    rw [parseArrItems_cons f1 c _ hne1]
    rw [← List.cons_append, ← hd]
    rw [parseVal_dumps x f1 _ hok2.1 hsz.1 (digitStop_dumpsTail xs r)]
    simp only [Option.bind_eq_bind, Option.some_bind]
    rw [skipWs_dumpsTail, parseArrTail_dumps xs f1 r hok2.2 hsz.2]
    rfl

theorem parseArrTail_dumps (xs : List J) :
    ∀ f r, jOKItems xs = true → jsizeTailM xs ≤ f →
      parseArrTail f (dumpsTail xs ++ r) = some (xs, r) := by
  cases xs with
  | nil =>
    intro f r _ hf
    obtain ⟨f1, rfl⟩ : ∃ f1, f = f1 + 1 := ⟨f - 1, by have e : jsizeTailM ([] : List J) = 1 := rfl; omega⟩
    rfl
  | cons y ys =>
    intro f r hok hf
    obtain ⟨f1, rfl⟩ : ∃ f1, f = f1 + 1 :=
      ⟨f - 1, by have e : jsizeTailM (y :: ys) = 1 + max (jsize y) (jsizeTailM ys) := rfl; omega⟩
    have hsz : jsize y ≤ f1 ∧ jsizeTailM ys ≤ f1 := by
      have e : jsizeTailM (y :: ys) = 1 + max (jsize y) (jsizeTailM ys) := rfl
      constructor <;> omega
    have hok2 : jOK y = true ∧ jOKItems ys = true := by
      have e : jOKItems (y :: ys) = (jOK y && jOKItems ys) := rfl
      rw [e, Bool.and_eq_true] at hok
      exact hok
    have hshape : dumpsTail (y :: ys) ++ r = ',' :: ' ' :: (dumps y ++ (dumpsTail ys ++ r)) := by
      have e : dumpsTail (y :: ys) = ',' :: ' ' :: dumps y ++ dumpsTail ys := rfl
      rw [e]
      simp
    rw [hshape, parseArrTail_comma]
    have hsk : skipWs (' ' :: (dumps y ++ (dumpsTail ys ++ r))) = dumps y ++ (dumpsTail ys ++ r) := by
      have e : skipWs (' ' :: (dumps y ++ (dumpsTail ys ++ r))) =
          skipWs (dumps y ++ (dumpsTail ys ++ r)) := rfl
      rw [e]
      exact skipWs_dumps y _
    rw [hsk]
    rw [parseVal_dumps y f1 _ hok2.1 hsz.1 (digitStop_dumpsTail ys r)]
    simp only [Option.bind_eq_bind, Option.some_bind]
    rw [skipWs_dumpsTail, parseArrTail_dumps ys f1 r hok2.2 hsz.2]
    rfl

theorem parseObjItems_dumps (kvs : List (Str × J)) :
    ∀ f r, jOKFields kvs = true → jsizeFields kvs ≤ f →
      parseObjItems f (dumpsFields kvs ++ r) = some (kvs, r) := by
  cases kvs with
  | nil =>
    intro f r _ hf
    obtain ⟨f1, rfl⟩ : ∃ f1, f = f1 + 1 :=
      ⟨f - 1, by have e : jsizeFields ([] : List (Str × J)) = 1 := rfl; omega⟩
    rfl
  | cons kv kvs =>
    obtain ⟨k, v⟩ := kv
    intro f r hok hf
    obtain ⟨f1, rfl⟩ : ∃ f1, f = f1 + 1 :=
      ⟨f - 1, by
        have e : jsizeFields ((k, v) :: kvs) = 1 + max (jsize v) (jsizeFTailM kvs) := rfl
        omega⟩
    have hsz : jsize v ≤ f1 ∧ jsizeFTailM kvs ≤ f1 := by
      have e : jsizeFields ((k, v) :: kvs) = 1 + max (jsize v) (jsizeFTailM kvs) := rfl
      constructor <;> omega
    have hok4 : (k.all asciiOK = true ∧ jOK v = true) ∧
        (kvs.any (fun kv => kv.1 = k)) = false ∧ jOKFields kvs = true := by
      have e : jOKFields ((k, v) :: kvs) =
          (k.all asciiOK && jOK v && !(kvs.any (fun kv => kv.1 = k)) && jOKFields kvs) := rfl
      rw [e] at hok
      simp only [Bool.and_eq_true, Bool.not_eq_true', Bool.and_assoc] at hok
      tauto
    have hshape : dumpsFields ((k, v) :: kvs) ++ r =
        '"' :: (escStr k ++ '"' :: (':' :: ' ' :: (dumps v ++ (dumpsFTail kvs ++ r)))) := by
      have e : dumpsFields ((k, v) :: kvs) =
          '"' :: escStr k ++ '"' :: ':' :: ' ' :: dumps v ++ dumpsFTail kvs := rfl
      rw [e]
      simp
    rw [hshape, parseObjItems_quote]
    rw [parseStringBody_escStr _ _ (fun c hc => (List.all_eq_true.mp hok4.1.1) c hc) ?hfu2]
    case hfu2 =>
      have h1 := escStr_length (fun c hc => (List.all_eq_true.mp hok4.1.1) c hc)
      simp only [List.length_append, List.length_cons]
      omega
    simp only [Option.bind_eq_bind, Option.some_bind]
    show (parseVal f1 (skipWs (' ' :: (dumps v ++ (dumpsFTail kvs ++ r))))).bind
        (fun a => parseObjTail f1 (skipWs a.2) (dictInsert [] k a.1)) = some ((k, v) :: kvs, r)
    have hsk2 : skipWs (' ' :: (dumps v ++ (dumpsFTail kvs ++ r))) =
        dumps v ++ (dumpsFTail kvs ++ r) := by
      have e : skipWs (' ' :: (dumps v ++ (dumpsFTail kvs ++ r))) =
          skipWs (dumps v ++ (dumpsFTail kvs ++ r)) := rfl
      rw [e]
      exact skipWs_dumps v _
    rw [hsk2]
    rw [parseVal_dumps v f1 _ hok4.1.2 hsz.1 (digitStop_dumpsFTail kvs r)]
    simp only [Option.some_bind]
    rw [skipWs_dumpsFTail]
    have hins : dictInsert [] k v = [(k, v)] := rfl
    rw [hins]
    rw [parseObjTail_dumps kvs f1 r [(k, v)] hok4.2.2 hsz.2 ?hdisj]
    case hdisj =>
      intro kv2 hkv2
      have e : hasKey [(k, v)] kv2.1 = decide (k = kv2.1) := by simp [hasKey]
      rw [e]
      simp only [decide_eq_false_iff_not]
      intro hh
      have : (kvs.any (fun kv => kv.1 = k)) = true :=
        List.any_eq_true.mpr ⟨kv2, hkv2, by simp [hh]⟩
      rw [hok4.2.1] at this
      exact Bool.false_ne_true this
    rfl

theorem parseObjTail_dumps (kvs : List (Str × J)) :
    ∀ f r acc, jOKFields kvs = true → jsizeFTailM kvs ≤ f →
      (∀ kv ∈ kvs, hasKey acc kv.1 = false) →
      parseObjTail f (dumpsFTail kvs ++ r) acc = some (acc ++ kvs, r) := by
  cases kvs with
  | nil =>
    intro f r acc _ hf _
    obtain ⟨f1, rfl⟩ : ∃ f1, f = f1 + 1 :=
      ⟨f - 1, by have e : jsizeFTailM ([] : List (Str × J)) = 1 := rfl; omega⟩
    simp only [List.append_nil]
    rfl
  | cons kv kvs =>
    obtain ⟨k, v⟩ := kv
    intro f r acc hok hf hdisj
    obtain ⟨f1, rfl⟩ : ∃ f1, f = f1 + 1 :=
      ⟨f - 1, by
        have e : jsizeFTailM ((k, v) :: kvs) = 1 + max (jsize v) (jsizeFTailM kvs) := rfl
        omega⟩
    have hsz : jsize v ≤ f1 ∧ jsizeFTailM kvs ≤ f1 := by
      have e : jsizeFTailM ((k, v) :: kvs) = 1 + max (jsize v) (jsizeFTailM kvs) := rfl
      constructor <;> omega
    have hok4 : (k.all asciiOK = true ∧ jOK v = true) ∧
        (kvs.any (fun kv => kv.1 = k)) = false ∧ jOKFields kvs = true := by
      have e : jOKFields ((k, v) :: kvs) =
          (k.all asciiOK && jOK v && !(kvs.any (fun kv => kv.1 = k)) && jOKFields kvs) := rfl
      rw [e] at hok
      simp only [Bool.and_eq_true, Bool.not_eq_true', Bool.and_assoc] at hok
      tauto
    have hshape : dumpsFTail ((k, v) :: kvs) ++ r =
        ',' :: ' ' :: '"' :: (escStr k ++ '"' :: (':' :: ' ' :: (dumps v ++ (dumpsFTail kvs ++ r)))) := by
      have e : dumpsFTail ((k, v) :: kvs) =
          ',' :: ' ' :: '"' :: escStr k ++ '"' :: ':' :: ' ' :: dumps v ++ dumpsFTail kvs := rfl
      rw [e]
      simp
    rw [hshape, parseObjTail_field]
    rw [parseStringBody_escStr _ _ (fun c hc => (List.all_eq_true.mp hok4.1.1) c hc) ?hfu3]
    case hfu3 =>
      have h1 := escStr_length (fun c hc => (List.all_eq_true.mp hok4.1.1) c hc)
      simp only [List.length_append, List.length_cons]
      omega
    simp only [Option.bind_eq_bind, Option.some_bind]
    show (parseVal f1 (skipWs (' ' :: (dumps v ++ (dumpsFTail kvs ++ r))))).bind
        (fun a => parseObjTail f1 (skipWs a.2) (dictInsert acc k a.1)) = some (acc ++ (k, v) :: kvs, r)
    have hsk2 : skipWs (' ' :: (dumps v ++ (dumpsFTail kvs ++ r))) =
        dumps v ++ (dumpsFTail kvs ++ r) := by
      have e : skipWs (' ' :: (dumps v ++ (dumpsFTail kvs ++ r))) =
          skipWs (dumps v ++ (dumpsFTail kvs ++ r)) := rfl
      rw [e]
      exact skipWs_dumps v _
    rw [hsk2]
    rw [parseVal_dumps v f1 _ hok4.1.2 hsz.1 (digitStop_dumpsFTail kvs r)]
    simp only [Option.some_bind]
    rw [skipWs_dumpsFTail]
    have hkacc : hasKey acc k = false := hdisj (k, v) (by simp)
    rw [dictInsert_notMem v hkacc]
    rw [parseObjTail_dumps kvs f1 r (acc ++ [(k, v)]) hok4.2.2 hsz.2 ?hdisj2]
    case hdisj2 =>
      intro kv2 hkv2
      rw [hasKey_append]
      have h1 : hasKey acc kv2.1 = false := hdisj kv2 (by simp [hkv2])
      have h2 : hasKey [(k, v)] kv2.1 = false := by
        have e : hasKey [(k, v)] kv2.1 = decide (k = kv2.1) := by simp [hasKey]
        rw [e]
        simp only [decide_eq_false_iff_not]
        intro hh
        have : (kvs.any (fun kv => kv.1 = k)) = true :=
          List.any_eq_true.mpr ⟨kv2, hkv2, by simp [hh]⟩
        rw [hok4.2.1] at this
        exact Bool.false_ne_true this
      rw [h1, h2]
      rfl
    rw [List.append_assoc]
    simp

end

/-! ## `loads` inverts `dumps`: fuel and length bookkeeping -/

theorem dumps_length_pos (j : J) : 1 ≤ (dumps j).length := by
  obtain ⟨c, t, hd, _⟩ := dumps_head_facts j
  rw [hd]
  simp

theorem dumpsTail_length_pos (xs : List J) : 1 ≤ (dumpsTail xs).length := by
  rcases dumpsTail_shape xs with h | ⟨w, h⟩ <;> simp [h]

theorem dumpsFTail_length_pos (kvs : List (Str × J)) : 1 ≤ (dumpsFTail kvs).length := by
  rcases dumpsFTail_shape kvs with h | ⟨w, h⟩ <;> simp [h]

mutual

theorem jsize_le_dumps (j : J) : jsize j ≤ (dumps j).length + 1 := by
  cases j with
  | null => decide
  | bool b => cases b <;> decide
  | int i =>
    have e : jsize (J.int i) = 1 := rfl
    have := dumps_length_pos (J.int i)
    omega
  | str s2 =>
    have e : jsize (J.str s2) = 1 := rfl
    have := dumps_length_pos (J.str s2)
    omega
  | arr xs =>
    have e : jsize (J.arr xs) = 1 + jsizeItems xs := rfl
    have e2 : (dumps (J.arr xs)).length = 1 + (dumpsItems xs).length := by
      have e3 : dumps (J.arr xs) = '[' :: dumpsItems xs := rfl
      rw [e3]
      simp
      omega
    have h1 := jsizeItems_le_dumps xs
    omega
  | obj kvs =>
    have e : jsize (J.obj kvs) = 1 + jsizeFields kvs := rfl
    have e2 : (dumps (J.obj kvs)).length = 1 + (dumpsFields kvs).length := by
      have e3 : dumps (J.obj kvs) = '\x7b' :: dumpsFields kvs := rfl
      rw [e3]
      simp
      omega
    have h1 := jsizeFields_le_dumps kvs
    omega

theorem jsizeItems_le_dumps (xs : List J) : jsizeItems xs ≤ (dumpsItems xs).length + 1 := by
  cases xs with
  | nil => decide
  | cons x xs =>
    have e : jsizeItems (x :: xs) = 1 + max (jsize x) (jsizeTailM xs) := rfl
    have e2 : (dumpsItems (x :: xs)).length = (dumps x).length + (dumpsTail xs).length := by
      have e3 : dumpsItems (x :: xs) = dumps x ++ dumpsTail xs := rfl
      rw [e3]
      simp
    have h1 := jsize_le_dumps x
    have h2 := jsizeTailM_le_dumps xs
    have h3 := dumps_length_pos x
    have h4 := dumpsTail_length_pos xs
    omega

theorem jsizeTailM_le_dumps (xs : List J) : jsizeTailM xs ≤ (dumpsTail xs).length + 1 := by
  cases xs with
  | nil => decide
  | cons y ys =>
    have e : jsizeTailM (y :: ys) = 1 + max (jsize y) (jsizeTailM ys) := rfl
    have e2 : (dumpsTail (y :: ys)).length = 2 + (dumps y).length + (dumpsTail ys).length := by
      have e3 : dumpsTail (y :: ys) = ',' :: ' ' :: dumps y ++ dumpsTail ys := rfl
      rw [e3]
      simp
      omega
    have h1 := jsize_le_dumps y
    have h2 := jsizeTailM_le_dumps ys
    have h3 := dumps_length_pos y
    have h4 := dumpsTail_length_pos ys
    omega

theorem jsizeFields_le_dumps (kvs : List (Str × J)) :
    jsizeFields kvs ≤ (dumpsFields kvs).length + 1 := by
  cases kvs with
  | nil => decide
  | cons kv kvs =>
    obtain ⟨k, v⟩ := kv
    have e : jsizeFields ((k, v) :: kvs) = 1 + max (jsize v) (jsizeFTailM kvs) := rfl
    have e2 : (dumpsFields ((k, v) :: kvs)).length =
        1 + (escStr k).length + 3 + (dumps v).length + (dumpsFTail kvs).length := by
      have e3 : dumpsFields ((k, v) :: kvs) =
          '"' :: escStr k ++ '"' :: ':' :: ' ' :: dumps v ++ dumpsFTail kvs := rfl
      rw [e3]
      simp
      omega
    have h1 := jsize_le_dumps v
    have h2 := jsizeFTailM_le_dumps kvs
    have h3 := dumps_length_pos v
    have h4 := dumpsFTail_length_pos kvs
    omega

theorem jsizeFTailM_le_dumps (kvs : List (Str × J)) :
    jsizeFTailM kvs ≤ (dumpsFTail kvs).length + 1 := by
  cases kvs with
  | nil => decide
  | cons kv kvs =>
    obtain ⟨k, v⟩ := kv
    have e : jsizeFTailM ((k, v) :: kvs) = 1 + max (jsize v) (jsizeFTailM kvs) := rfl
    have e2 : (dumpsFTail ((k, v) :: kvs)).length =
        3 + (escStr k).length + 3 + (dumps v).length + (dumpsFTail kvs).length := by
      have e3 : dumpsFTail ((k, v) :: kvs) =
          ',' :: ' ' :: '"' :: escStr k ++ '"' :: ':' :: ' ' :: dumps v ++ dumpsFTail kvs := rfl
      rw [e3]
      simp
      omega
    have h1 := jsize_le_dumps v
    have h2 := jsizeFTailM_le_dumps kvs
    have h3 := dumps_length_pos v
    have h4 := dumpsFTail_length_pos kvs
    omega

end

/-- `json.loads` inverts `json.dumps` on wellformed values. -/
theorem loads_dumps (j : J) (hok : jOK j = true) : loads (dumps j) = some j := by
  rw [loads]
  have hsk : skipWs (dumps j) = dumps j := by
    have h1 := skipWs_dumps j []
    simpa using h1
  rw [hsk]
  have hp : parseVal ((dumps j).length + 1) (dumps j ++ []) = some (j, []) :=
    parseVal_dumps j ((dumps j).length + 1) [] hok (jsize_le_dumps j)
      (fun c hc => by simp at hc)
  rw [List.append_nil] at hp
  rw [hp]
  rfl

/-! ## Newline framing: `receive` recovers the frames `send` writes -/

/-- The bytes of a sequence of newline-terminated frames as they sit in
one network read: what repeated `send` calls put on the wire. -/
def wireFrames (msgs : List J) : Str := (msgs.map (fun m => dumps m ++ ['\n'])).flatten

/-- The same bytes without the final newline: what `str.strip` leaves. -/
def interFrames : List J → Str
  | [] => []
  | [m] => dumps m
  | m :: ms => dumps m ++ '\n' :: interFrames ms

theorem wireFrames_eq (m : J) (ms : List J) :
    wireFrames (m :: ms) = interFrames (m :: ms) ++ ['\n'] := by
  induction ms generalizing m with
  | nil => simp [wireFrames, interFrames]
  | cons m2 ms ih =>
    have e1 : wireFrames (m :: m2 :: ms) = (dumps m ++ ['\n']) ++ wireFrames (m2 :: ms) := by
      simp [wireFrames]
    have e2 : interFrames (m :: m2 :: ms) = dumps m ++ '\n' :: interFrames (m2 :: ms) := rfl
    rw [e1, ih m2, e2]
    simp

theorem dumpsTail_ends (xs : List J) : ∃ t, dumpsTail xs = t ++ [']'] := by
  induction xs with
  | nil => exact ⟨[], rfl⟩
  | cons y ys ih =>
    obtain ⟨t, ht⟩ := ih
    refine ⟨',' :: ' ' :: dumps y ++ t, ?_⟩
    have e : dumpsTail (y :: ys) = ',' :: ' ' :: dumps y ++ dumpsTail ys := rfl
    rw [e, ht]
    simp

theorem dumpsItems_ends (xs : List J) : ∃ t, dumpsItems xs = t ++ [']'] := by
  cases xs with
  | nil => exact ⟨[], rfl⟩
  | cons x xs =>
    obtain ⟨t, ht⟩ := dumpsTail_ends xs
    refine ⟨dumps x ++ t, ?_⟩
    have e : dumpsItems (x :: xs) = dumps x ++ dumpsTail xs := rfl
    rw [e, ht]
    simp

theorem dumpsFTail_ends (kvs : List (Str × J)) : ∃ t, dumpsFTail kvs = t ++ ['\x7d'] := by
  induction kvs with
  | nil => exact ⟨[], rfl⟩
  | cons kv kvs ih =>
    obtain ⟨k, v⟩ := kv
    obtain ⟨t, ht⟩ := ih
    refine ⟨',' :: ' ' :: '"' :: escStr k ++ '"' :: ':' :: ' ' :: dumps v ++ t, ?_⟩
    have e : dumpsFTail ((k, v) :: kvs) =
        ',' :: ' ' :: '"' :: escStr k ++ '"' :: ':' :: ' ' :: dumps v ++ dumpsFTail kvs := rfl
    rw [e, ht]
    simp

theorem dumpsFields_ends (kvs : List (Str × J)) : ∃ t, dumpsFields kvs = t ++ ['\x7d'] := by
  cases kvs with
  | nil => exact ⟨[], rfl⟩
  | cons kv kvs =>
    obtain ⟨k, v⟩ := kv
    obtain ⟨t, ht⟩ := dumpsFTail_ends kvs
    refine ⟨'"' :: escStr k ++ '"' :: ':' :: ' ' :: dumps v ++ t, ?_⟩
    have e : dumpsFields ((k, v) :: kvs) =
        '"' :: escStr k ++ '"' :: ':' :: ' ' :: dumps v ++ dumpsFTail kvs := rfl
    rw [e, ht]
    simp

theorem natDigits_ends (n : Nat) : ∃ t d, natDigits n = t ++ [d] ∧ isDigitC d = true := by
  rw [natDigits, natDigitsAux]
  by_cases h : n < 10
  · rw [if_pos h]
    refine ⟨[], Char.ofNat (48 + n), rfl, ?_⟩
    have ht : (Char.ofNat (48 + n)).toNat = 48 + n := toNat_ofNat_small (by omega)
    simp [isDigitC, ht]
    omega
  · rw [if_neg h]
    refine ⟨natDigitsAux n (n / 10), Char.ofNat (48 + n % 10), rfl, ?_⟩
    have ht : (Char.ofNat (48 + n % 10)).toNat = 48 + n % 10 := toNat_ofNat_small (by omega)
    simp [isDigitC, ht]
    omega

theorem dumps_last (j : J) : ∀ c, (dumps j).getLast? = some c → isPyWs c = false := by
  cases j with
  | null =>
    intro c hc
    have e : (dumps J.null).getLast? = some 'l' := rfl
    rw [e] at hc
    cases Option.some.inj hc
    decide
  | bool b =>
    intro c hc
    cases b with
    | true =>
      have e : (dumps (J.bool true)).getLast? = some 'e' := rfl
      rw [e] at hc
      cases Option.some.inj hc
      decide
    | false =>
      have e : (dumps (J.bool false)).getLast? = some 'e' := rfl
      rw [e] at hc
      cases Option.some.inj hc
      decide
  | int i =>
    intro c hc
    obtain ⟨t, d, ht, hd⟩ := natDigits_ends i.natAbs
    have e : dumps (J.int i) = intToStr i := rfl
    rw [e, intToStr] at hc
    by_cases hneg : i < 0
    · rw [if_pos hneg, ht] at hc
      rw [show '-' :: (t ++ [d]) = ('-' :: t) ++ [d] from rfl, List.getLast?_concat] at hc
      cases Option.some.inj hc
      exact digit_not_pyWs hd
    · rw [if_neg hneg, ht, List.getLast?_concat] at hc
      cases Option.some.inj hc
      exact digit_not_pyWs hd
  | str s2 =>
    intro c hc
    have e : dumps (J.str s2) = ('"' :: escStr s2) ++ ['"'] := by
      have e2 : dumps (J.str s2) = '"' :: escStr s2 ++ ['"'] := rfl
      rw [e2]
    rw [e, List.getLast?_concat] at hc
    cases Option.some.inj hc
    decide
  | arr xs =>
    intro c hc
    obtain ⟨t, ht⟩ := dumpsItems_ends xs
    have e : dumps (J.arr xs) = ('[' :: t) ++ [']'] := by
      have e2 : dumps (J.arr xs) = '[' :: dumpsItems xs := rfl
      rw [e2, ht]
      rfl
    rw [e, List.getLast?_concat] at hc
    cases Option.some.inj hc
    decide
  | obj kvs =>
    intro c hc
    obtain ⟨t, ht⟩ := dumpsFields_ends kvs
    have e : dumps (J.obj kvs) = ('\x7b' :: t) ++ ['\x7d'] := by
      have e2 : dumps (J.obj kvs) = '\x7b' :: dumpsFields kvs := rfl
      rw [e2, ht]
      rfl
    rw [e, List.getLast?_concat] at hc
    cases Option.some.inj hc
    decide

theorem escStr_no_nl {s : Str} (hs : ∀ c ∈ s, asciiOK c = true) : '\n' ∉ escStr s := by
  induction s with
  | nil => simp [escStr]
  | cons c t ih =>
    have hc := hs c (by simp)
    have ih2 := ih (fun d hd => hs d (by simp [hd]))
    have e : escStr (c :: t) = escapeChar c ++ escStr t := by simp [escStr]
    rw [e]
    intro hmem
    rcases List.mem_append.mp hmem with hmem | hmem
    · rcases escapeChar_printable hc with ⟨_, he⟩ | ⟨_, he⟩ | ⟨_, _, he⟩
      · rw [he] at hmem
        simp at hmem
      · rw [he] at hmem
        simp at hmem
      · rw [he] at hmem
        simp at hmem
        subst hmem
        simp only [asciiOK, Bool.and_eq_true, decide_eq_true_eq] at hc
        rw [show ('\n').toNat = 10 from rfl] at hc
        omega
    · exact ih2 hmem

theorem intToStr_no_nl (i : Int) : '\n' ∉ intToStr i := by
  intro hmem
  rcases intToStr_chars i '\n' hmem with h | h
  · exact absurd h (by decide)
  · exact absurd h (by decide)

mutual

theorem dumps_no_nl (j : J) : jOK j = true → '\n' ∉ dumps j := by
  cases j with
  | null =>
    intro _ h
    have e : dumps J.null = ['n', 'u', 'l', 'l'] := rfl
    rw [e] at h
    simp at h
  | bool b =>
    intro _ h
    cases b with
    | true =>
      have e : dumps (J.bool true) = ['t', 'r', 'u', 'e'] := rfl
      rw [e] at h
      simp at h
    | false =>
      have e : dumps (J.bool false) = ['f', 'a', 'l', 's', 'e'] := rfl
      rw [e] at h
      simp at h
  | int i => intro _ h; exact intToStr_no_nl i h
  | str s2 =>
    intro hok h
    have hok2 : ∀ c ∈ s2, asciiOK c = true := by
      have e : jOK (J.str s2) = s2.all asciiOK := rfl
      rw [e, List.all_eq_true] at hok
      exact fun c hc => hok c hc
    have e : dumps (J.str s2) = '"' :: escStr s2 ++ ['"'] := rfl
    rw [e] at h
    simp only [List.mem_cons, List.mem_append, List.mem_singleton] at h
    rcases h with (h | h) | h
    · exact absurd h (by decide)
    · exact escStr_no_nl hok2 h
    · exact absurd h (by decide)
  | arr xs =>
    intro hok h
    have e : dumps (J.arr xs) = '[' :: dumpsItems xs := rfl
    rw [e] at h
    rcases List.mem_cons.mp h with h | h
    · exact absurd h (by decide)
    · exact dumpsItems_no_nl xs hok h
  | obj kvs =>
    intro hok h
    have e : dumps (J.obj kvs) = '\x7b' :: dumpsFields kvs := rfl
    rw [e] at h
    rcases List.mem_cons.mp h with h | h
    · exact absurd h (by decide)
    · exact dumpsFields_no_nl kvs hok h

theorem dumpsItems_no_nl (xs : List J) : jOKItems xs = true → '\n' ∉ dumpsItems xs := by
  cases xs with
  | nil =>
    intro _ h
    have e : dumpsItems ([] : List J) = [']'] := rfl
    rw [e] at h
    simp at h
  | cons x xs =>
    intro hok h
    have hok2 : jOK x = true ∧ jOKItems xs = true := by
      have e : jOKItems (x :: xs) = (jOK x && jOKItems xs) := rfl
      rw [e, Bool.and_eq_true] at hok
      exact hok
    have e : dumpsItems (x :: xs) = dumps x ++ dumpsTail xs := rfl
    rw [e] at h
    rcases List.mem_append.mp h with h | h
    · exact dumps_no_nl x hok2.1 h
    · exact dumpsTail_no_nl xs hok2.2 h

theorem dumpsTail_no_nl (xs : List J) : jOKItems xs = true → '\n' ∉ dumpsTail xs := by
  cases xs with
  | nil =>
    intro _ h
    have e : dumpsTail ([] : List J) = [']'] := rfl
    rw [e] at h
    simp at h
  | cons y ys =>
    intro hok h
    have hok2 : jOK y = true ∧ jOKItems ys = true := by
      have e : jOKItems (y :: ys) = (jOK y && jOKItems ys) := rfl
      rw [e, Bool.and_eq_true] at hok
      exact hok
    have e : dumpsTail (y :: ys) = ',' :: ' ' :: dumps y ++ dumpsTail ys := rfl
    rw [e] at h
    simp only [List.mem_cons, List.mem_append] at h
    rcases h with (h | h | h) | h
    · exact absurd h (by decide)
    · exact absurd h (by decide)
    · exact dumps_no_nl y hok2.1 h
    · exact dumpsTail_no_nl ys hok2.2 h

theorem dumpsFields_no_nl (kvs : List (Str × J)) :
    jOKFields kvs = true → '\n' ∉ dumpsFields kvs := by
  cases kvs with
  | nil =>
    intro _ h
    have e : dumpsFields ([] : List (Str × J)) = ['\x7d'] := rfl
    rw [e] at h
    simp at h
  | cons kv kvs =>
    obtain ⟨k, v⟩ := kv
    intro hok h
    have hok4 : (k.all asciiOK = true ∧ jOK v = true) ∧
        (kvs.any (fun kv => kv.1 = k)) = false ∧ jOKFields kvs = true := by
      have e : jOKFields ((k, v) :: kvs) =
          (k.all asciiOK && jOK v && !(kvs.any (fun kv => kv.1 = k)) && jOKFields kvs) := rfl
      rw [e] at hok
      simp only [Bool.and_eq_true, Bool.not_eq_true', Bool.and_assoc] at hok
      tauto
    have e : dumpsFields ((k, v) :: kvs) =
        '"' :: escStr k ++ '"' :: ':' :: ' ' :: dumps v ++ dumpsFTail kvs := rfl
    rw [e] at h
    simp only [List.mem_cons, List.mem_append] at h
    rcases h with ((h | h) | h | h | h | h) | h
    · exact absurd h (by decide)
    · exact escStr_no_nl (fun c hc => (List.all_eq_true.mp hok4.1.1) c hc) h
    · exact absurd h (by decide)
    · exact absurd h (by decide)
    · exact absurd h (by decide)
    · exact dumps_no_nl v hok4.1.2 h
    · exact dumpsFTail_no_nl kvs hok4.2.2 h

theorem dumpsFTail_no_nl (kvs : List (Str × J)) :
    jOKFields kvs = true → '\n' ∉ dumpsFTail kvs := by
  cases kvs with
  | nil =>
    intro _ h
    have e : dumpsFTail ([] : List (Str × J)) = ['\x7d'] := rfl
    rw [e] at h
    simp at h
  | cons kv kvs =>
    obtain ⟨k, v⟩ := kv
    intro hok h
    have hok4 : (k.all asciiOK = true ∧ jOK v = true) ∧
        (kvs.any (fun kv => kv.1 = k)) = false ∧ jOKFields kvs = true := by
      have e : jOKFields ((k, v) :: kvs) =
          (k.all asciiOK && jOK v && !(kvs.any (fun kv => kv.1 = k)) && jOKFields kvs) := rfl
      rw [e] at hok
      simp only [Bool.and_eq_true, Bool.not_eq_true', Bool.and_assoc] at hok
      tauto
    have e : dumpsFTail ((k, v) :: kvs) =
        ',' :: ' ' :: '"' :: escStr k ++ '"' :: ':' :: ' ' :: dumps v ++ dumpsFTail kvs := rfl
    rw [e] at h
    simp only [List.mem_cons, List.mem_append] at h
    rcases h with ((h | h | h | h) | h | h | h | h) | h
    · exact absurd h (by decide)
    · exact absurd h (by decide)
    · exact absurd h (by decide)
    · exact escStr_no_nl (fun c hc => (List.all_eq_true.mp hok4.1.1) c hc) h
    · exact absurd h (by decide)
    · exact absurd h (by decide)
    · exact absurd h (by decide)
    · exact dumps_no_nl v hok4.1.2 h
    · exact dumpsFTail_no_nl kvs hok4.2.2 h

end

theorem dumps_ne_nil (j : J) : dumps j ≠ [] := by
  have h := dumps_length_pos j
  intro hh
  rw [hh] at h
  simp at h

theorem pyStrip_append_nl {l : Str} (hne : l ≠ [])
    (hh : ∀ c, l.head? = some c → isPyWs c = false)
    (hl : ∀ c, l.getLast? = some c → isPyWs c = false) :
    pyStrip (l ++ ['\n']) = l := by
  cases l with
  | nil => exact absurd rfl hne
  | cons a t =>
    have ha : isPyWs a = false := hh a rfl
    rw [pyStrip]
    have h1 : ((a :: t) ++ ['\n']).dropWhile isPyWs = (a :: t) ++ ['\n'] := by
      simp only [List.cons_append, List.dropWhile_cons, ha]
      simp
    rw [h1]
    have h2 : ((a :: t) ++ ['\n']).reverse = '\n' :: (a :: t).reverse := by simp
    rw [h2]
    have h3 : ('\n' :: (a :: t).reverse).dropWhile isPyWs = (a :: t).reverse.dropWhile isPyWs := by
      rw [List.dropWhile_cons, if_pos (show isPyWs '\n' = true from rfl)]
    rw [h3]
    cases hrev : (a :: t).reverse with
    | nil => simp at hrev
    | cons b rb =>
      have hb : isPyWs b = false := by
        apply hl
        rw [← List.head?_reverse, hrev]
        rfl
      rw [List.dropWhile_cons, hb]
      simp only [Bool.false_eq_true, if_false]
      rw [← hrev, List.reverse_reverse]

theorem pySplit_no_nl {a : Str} (h : '\n' ∉ a) : pySplit a = [a] := by
  induction a with
  | nil => rfl
  | cons c t ih =>
    have hc : ¬(c = '\n') := fun hh => h (by simp [hh])
    have iht := ih (fun hm => h (by simp [hm]))
    rw [pySplit, if_neg hc, iht]

theorem pySplit_append_nl {a : Str} (b : Str) (h : '\n' ∉ a) :
    pySplit (a ++ '\n' :: b) = a :: pySplit b := by
  induction a with
  | nil =>
    rw [List.nil_append, pySplit, if_pos rfl]
  | cons c t ih =>
    have hc : ¬(c = '\n') := fun hh => h (by simp [hh])
    have iht := ih (fun hm => h (by simp [hm]))
    rw [List.cons_append, pySplit, if_neg hc, iht]

theorem interFrames_ne_nil (m : J) (ms : List J) : interFrames (m :: ms) ≠ [] := by
  cases ms with
  | nil => exact dumps_ne_nil m
  | cons m2 ms2 =>
    have e : interFrames (m :: m2 :: ms2) = dumps m ++ '\n' :: interFrames (m2 :: ms2) := rfl
    rw [e]
    simp

theorem interFrames_head (m : J) (ms : List J) :
    ∀ c, (interFrames (m :: ms)).head? = some c → isPyWs c = false := by
  obtain ⟨c0, t0, hd, _, hpy, _⟩ := dumps_head_facts m
  intro c hc
  cases ms with
  | nil =>
    have e : interFrames [m] = dumps m := rfl
    rw [e, hd] at hc
    cases Option.some.inj hc
    exact hpy
  | cons m2 ms2 =>
    have e : interFrames (m :: m2 :: ms2) = dumps m ++ '\n' :: interFrames (m2 :: ms2) := rfl
    rw [e, hd] at hc
    simp only [List.cons_append, List.head?_cons] at hc
    cases Option.some.inj hc
    exact hpy

theorem interFrames_last (m : J) (ms : List J) :
    ∀ c, (interFrames (m :: ms)).getLast? = some c → isPyWs c = false := by
  induction ms generalizing m with
  | nil =>
    intro c hc
    have e : interFrames [m] = dumps m := rfl
    rw [e] at hc
    exact dumps_last m c hc
  | cons m2 ms2 ih =>
    intro c hc
    have e : interFrames (m :: m2 :: ms2) =
        (dumps m ++ ['\n']) ++ interFrames (m2 :: ms2) := by
      have e2 : interFrames (m :: m2 :: ms2) = dumps m ++ '\n' :: interFrames (m2 :: ms2) := rfl
      rw [e2]
      simp
    rw [e, List.getLast?_append_of_ne_nil _ (interFrames_ne_nil m2 ms2)] at hc
    exact ih m2 c hc

theorem interFrames_no_nl_split (msgs : List J) (hok : ∀ m ∈ msgs, jOK m = true)
    (hne : msgs ≠ []) : pySplit (interFrames msgs) = msgs.map dumps := by
  induction msgs with
  | nil => exact absurd rfl hne
  | cons m ms ih =>
    cases ms with
    | nil =>
      have e : interFrames [m] = dumps m := rfl
      rw [e, pySplit_no_nl (dumps_no_nl m (hok m (by simp)))]
      rfl
    | cons m2 ms2 =>
      have e : interFrames (m :: m2 :: ms2) = dumps m ++ '\n' :: interFrames (m2 :: ms2) := rfl
      rw [e, pySplit_append_nl _ (dumps_no_nl m (hok m (by simp)))]
      rw [ih (fun x hx => hok x (by simp [List.mem_cons] at hx ⊢; tauto)) (by simp)]
      rfl

theorem parseLines_dumps (msgs : List J) (hok : ∀ m ∈ msgs, jOK m = true) :
    parseLines (msgs.map dumps) = msgs := by
  induction msgs with
  | nil => rfl
  | cons m ms ih =>
    have e : (m :: ms).map dumps = dumps m :: ms.map dumps := rfl
    rw [e, parseLines, List.filterMap_cons]
    have hline : (if dumps m ≠ [] then loads (dumps m) else none) = some m := by
      rw [if_pos (dumps_ne_nil m), loads_dumps m (hok m (by simp))]
    rw [hline]
    have ih2 := ih (fun x hx => hok x (by simp [hx]))
    rw [parseLines] at ih2
    rw [ih2]

/-- One network read holding several newline-terminated frames decodes,
through `receive`'s strip/split/loads steps, to exactly those frames. -/
theorem decode_wireFrames (msgs : List J) (hok : ∀ m ∈ msgs, jOK m = true)
    (hne : msgs ≠ []) :
    parseLines (pySplit (pyStrip (wireFrames msgs))) = msgs := by
  cases msgs with
  | nil => exact absurd rfl hne
  | cons m ms =>
    rw [wireFrames_eq m ms]
    rw [pyStrip_append_nl (interFrames_ne_nil m ms) (interFrames_head m ms)
      (interFrames_last m ms)]
    rw [interFrames_no_nl_split _ hok (by simp)]
    exact parseLines_dumps _ hok

/-- One `receive` call on a read of several frames: the first frame is
returned, the rest are buffered, in order. -/
theorem receiveStep_frames (m : J) (ms : List J) (hok : ∀ x ∈ m :: ms, jOK x = true) :
    receiveStep [] (some (wireFrames (m :: ms))) = (some m, ms) := by
  obtain ⟨c, t, hd, _⟩ := dumps_head_facts m
  have hdata : ∃ w, wireFrames (m :: ms) = c :: w := by
    rw [wireFrames_eq m ms]
    cases ms with
    | nil =>
      have e : interFrames [m] = dumps m := rfl
      rw [e, hd]
      exact ⟨_, rfl⟩
    | cons m2 ms2 =>
      have e : interFrames (m :: m2 :: ms2) = dumps m ++ '\n' :: interFrames (m2 :: ms2) := rfl
      rw [e, hd]
      exact ⟨_, rfl⟩
  obtain ⟨w, hw⟩ := hdata
  have hrs : receiveStep [] (some (c :: w)) =
      (match parseLines (pySplit (pyStrip (c :: w))) with
       | mm :: rest => (some mm, rest)
       | [] => (none, [])) := rfl
  rw [hw, hrs, ← hw, decode_wireFrames (m :: ms) hok (by simp)]

/-- Successive `receive` calls drain the pending buffer in order. -/
theorem receiveCalls_buffer (buf : List J) :
    receiveCalls buf.length buf [] = buf.map some := by
  induction buf with
  | nil => rfl
  | cons b bs ih =>
    have e : receiveCalls (bs.length + 1) (b :: bs) [] = some b :: receiveCalls bs.length bs [] :=
      rfl
    rw [show (b :: bs).length = bs.length + 1 from rfl, e, ih]
    rfl

/-- `n` frames in one read are returned by `n` successive `receive`
calls, one frame per call, in arrival order. -/
theorem receiveCalls_frames (msgs : List J) (hok : ∀ m ∈ msgs, jOK m = true)
    (hne : msgs ≠ []) :
    receiveCalls msgs.length [] [some (wireFrames msgs)] = msgs.map some := by
  cases msgs with
  | nil => exact absurd rfl hne
  | cons m ms =>
    have e : receiveCalls (ms.length + 1) [] [some (wireFrames (m :: ms))] =
        (receiveStep [] (some (wireFrames (m :: ms)))).1 ::
          receiveCalls ms.length (receiveStep [] (some (wireFrames (m :: ms)))).2 [] := rfl
    rw [show (m :: ms).length = ms.length + 1 from rfl, e, receiveStep_frames m ms hok]
    show some m :: receiveCalls ms.length ms [] = (m :: ms).map some
    rw [receiveCalls_buffer ms]
    rfl

/-! ## Dispatch: the loop invokes exactly the matching callbacks, in order -/

/-- The specification's dispatch condition, stated declaratively: the
filter is null, or the message's `abbrev` field is a string that is a
member of the filter. -/
def specMatches (flt : Option (List Str)) (m : List (Str × J)) : Prop :=
  flt = none ∨ ∃ fs a, flt = some fs ∧ m.lookup ("abbrev".toList) = some (J.str a) ∧ a ∈ fs

theorem filterMatches_iff (flt : Option (List Str)) (m : List (Str × J)) :
    filterMatches flt m = true ↔ specMatches flt m := by
  cases flt with
  | none => simp [filterMatches, specMatches]
  | some fs =>
    rw [specMatches]
    cases hl : m.lookup ("abbrev".toList) with
    | none =>
      have e : filterMatches (some fs) m = false := by
        rw [filterMatches, hl]
      rw [e]
      simp [hl]
    | some v =>
      cases v with
      | str a =>
        have e : filterMatches (some fs) m = fs.contains a := by
          rw [filterMatches, hl]
        rw [e]
        constructor
        · intro h
          exact Or.inr ⟨fs, a, rfl, rfl, List.elem_iff.mp h⟩
        · intro h
          rcases h with h | ⟨fs2, a2, h1, h2, h3⟩
          · exact absurd h (by simp)
          · cases Option.some.inj h1
            cases J.str.inj (Option.some.inj h2)
            exact List.elem_iff.mpr h3
      | null =>
        have e : filterMatches (some fs) m = false := by rw [filterMatches, hl]
        rw [e]
        simp [hl]
      | bool b =>
        have e : filterMatches (some fs) m = false := by rw [filterMatches, hl]
        rw [e]
        simp [hl]
      | int n =>
        have e : filterMatches (some fs) m = false := by rw [filterMatches, hl]
        rw [e]
        simp [hl]
      | arr xs =>
        have e : filterMatches (some fs) m = false := by rw [filterMatches, hl]
        rw [e]
        simp [hl]
      | obj kvs =>
        have e : filterMatches (some fs) m = false := by rw [filterMatches, hl]
        rw [e]
        simp [hl]

/-- The handler indices the central loop invokes for one message. -/
def invokedIdx (cbs : List Callback) (m : List (Str × J)) : List Nat :=
  (dispatchMsg cbs.enum m).1

theorem dispatchMsg_enumFrom (cbs : List Callback) (m : List (Str × J)) :
    ∀ k, (∀ cb ∈ cbs, cb.raises = false) →
      (dispatchMsg (List.enumFrom k cbs) m).2 = false ∧
      (∀ i, i ∈ (dispatchMsg (List.enumFrom k cbs) m).1 ↔
        ∃ j cb, cbs[j]? = some cb ∧ i = k + j ∧ filterMatches cb.filter m = true) ∧
      (∀ i ∈ (dispatchMsg (List.enumFrom k cbs) m).1, k ≤ i) ∧
      List.Pairwise (fun a b => a < b) (dispatchMsg (List.enumFrom k cbs) m).1 := by
  induction cbs with
  | nil =>
    intro k _
    refine ⟨rfl, ?_, by simp [dispatchMsg], by simp [dispatchMsg]⟩
    intro i
    simp [dispatchMsg, List.enumFrom]
  | cons cb cbs ih =>
    intro k hnr
    have hcb : cb.raises = false := hnr cb (by simp)
    obtain ⟨ih1, ih2, ih3, ih4⟩ := ih (k + 1) (fun c hc => hnr c (by simp [hc]))
    rw [List.enumFrom_cons]
    by_cases hm : filterMatches cb.filter m = true
    · have e : dispatchMsg ((k, cb) :: List.enumFrom (k + 1) cbs) m =
          (k :: (dispatchMsg (List.enumFrom (k + 1) cbs) m).1,
            (dispatchMsg (List.enumFrom (k + 1) cbs) m).2) := by
        rw [dispatchMsg, if_pos hm, hcb]
        simp
      rw [e]
      refine ⟨ih1, ?_, ?_, ?_⟩
      · intro i
        simp only [List.mem_cons]
        constructor
        · rintro (rfl | hi)
          · exact ⟨0, cb, by simp, by omega, hm⟩
          · obtain ⟨j, cb2, hj1, hj2, hj3⟩ := (ih2 i).mp hi
            exact ⟨j + 1, cb2, by simpa using hj1, by omega, hj3⟩
        · rintro ⟨j, cb2, hj1, hj2, hj3⟩
          cases j with
          | zero =>
            left
            omega
          | succ j =>
            right
            rw [List.getElem?_cons_succ] at hj1
            exact (ih2 i).mpr ⟨j, cb2, hj1, by omega, hj3⟩
      · intro i hi
        rcases List.mem_cons.mp hi with rfl | hi
        · omega
        · have := ih3 i hi
          omega
      · refine List.pairwise_cons.mpr ⟨?_, ih4⟩
        intro i hi
        have := ih3 i hi
        omega
    · have e : dispatchMsg ((k, cb) :: List.enumFrom (k + 1) cbs) m =
          dispatchMsg (List.enumFrom (k + 1) cbs) m := by
        rw [dispatchMsg, if_neg hm]
      rw [e]
      refine ⟨ih1, ?_, ?_, ih4⟩
      · intro i
        rw [ih2 i]
        constructor
        · rintro ⟨j, cb2, hj1, hj2, hj3⟩
          exact ⟨j + 1, cb2, by simpa using hj1, by omega, hj3⟩
        · rintro ⟨j, cb2, hj1, hj2, hj3⟩
          cases j with
          | zero =>
            rw [List.getElem?_cons_zero] at hj1
            cases Option.some.inj hj1
            rw [hj3] at hm
            exact absurd rfl hm
          | succ j =>
            rw [List.getElem?_cons_succ] at hj1
            exact ⟨j, cb2, hj1, by omega, hj3⟩
      · intro i hi
        have := ih3 i hi
        omega

/-- With no raising handler and truthy messages, the loop processes
every message, invoking exactly the matching callbacks. -/
theorem callbackLoopRun_total (cbs : List Callback) (msgs : List (List (Str × J)))
    (hnr : ∀ cb ∈ cbs, cb.raises = false) (hm : ∀ m ∈ msgs, m.isEmpty = false) :
    callbackLoopRun cbs msgs = msgs.map (fun m => (m, invokedIdx cbs m)) := by
  induction msgs with
  | nil => rfl
  | cons m ms ih =>
    have hme : m.isEmpty = false := hm m (by simp)
    obtain ⟨hflag, _, _, _⟩ := dispatchMsg_enumFrom cbs m 0 hnr
    have e : callbackLoopRun cbs (m :: ms) =
        (m, (dispatchMsg cbs.enum m).1) ::
          (if (dispatchMsg cbs.enum m).2 then [] else callbackLoopRun cbs ms) := by
      rw [callbackLoopRun, hme]
      simp
    rw [e]
    have henum : cbs.enum = List.enumFrom 0 cbs := rfl
    rw [henum, hflag]
    rw [ih (fun x hx => hm x (by simp [hx]))]
    simp [invokedIdx, invokedIdx, List.enum]

/-! ## Subscription-union and periodic-scheduler support lemmas -/

theorem setAdd_mem (acc : List Str) (x y : Str) :
    y ∈ setAdd acc x ↔ y ∈ acc ∨ y = x := by
  rw [setAdd]
  by_cases h : x ∈ acc
  · rw [if_pos h]
    constructor
    · exact Or.inl
    · rintro (hy | rfl)
      · exact hy
      · exact h
  · rw [if_neg h]
    simp

theorem setUnion_mem (l : List Str) :
    ∀ acc y, y ∈ setUnion acc l ↔ y ∈ acc ∨ y ∈ l := by
  induction l with
  | nil => intro acc y; simp [setUnion]
  | cons x xs ih =>
    intro acc y
    have e : setUnion acc (x :: xs) = setUnion (setAdd acc x) xs := rfl
    rw [e, ih, setAdd_mem]
    simp only [List.mem_cons]
    tauto

theorem collectMessages_mem (cbs : List (Option (List Str))) (x : Str) :
    x ∈ collectMessages cbs ↔ ∃ l, some l ∈ cbs ∧ x ∈ l := by
  have aux : ∀ (cbs : List (Option (List Str))) (acc : List Str),
      x ∈ cbs.foldl
        (fun acc f =>
          match f with
          | some l => if l ≠ [] then setUnion acc l else acc
          | none => acc) acc ↔
        x ∈ acc ∨ ∃ l, some l ∈ cbs ∧ x ∈ l := by
    intro cbs
    induction cbs with
    | nil => intro acc; simp
    | cons f fs ih =>
      intro acc
      cases f with
      | none =>
        rw [List.foldl_cons]
        rw [ih acc]
        simp
      | some l =>
        rw [List.foldl_cons]
        by_cases hl : l = []
        · subst hl
          have e : (match some ([] : List Str) with
              | some l => if l ≠ [] then setUnion acc l else acc
              | none => acc) = acc := by simp
          rw [e, ih acc]
          simp
        · have e : (match some l with
              | some l => if l ≠ [] then setUnion acc l else acc
              | none => acc) = setUnion acc l := by simp [hl]
          rw [e, ih (setUnion acc l), setUnion_mem]
          constructor
          · rintro ((h | h) | ⟨l2, h1, h2⟩)
            · exact Or.inl h
            · exact Or.inr ⟨l, by simp, h⟩
            · exact Or.inr ⟨l2, by simp [h1], h2⟩
          · rintro (h | ⟨l2, h1, h2⟩)
            · exact Or.inl (Or.inl h)
            · rcases List.mem_cons.mp h1 with h1 | h1
              · cases Option.some.inj h1
                exact Or.inl (Or.inr h2)
              · exact Or.inr ⟨l2, h1, h2⟩
  rw [collectMessages, aux cbs []]
  simp

theorem runPeriodic_mono (I : Nat) (script : List TaskOutcome) :
    ∀ t, ∀ u ∈ (runPeriodic I t script).1, t ≤ u := by
  induction script with
  | nil => intro t u hu; simp [runPeriodic] at hu
  | cons o rest ih =>
    intro t u hu
    cases o with
    | ok =>
      have e : (runPeriodic I t (TaskOutcome.ok :: rest)).1 =
          t :: (runPeriodic I (t + I) rest).1 := rfl
      rw [e] at hu
      rcases List.mem_cons.mp hu with rfl | hu
      · omega
      · have := ih (t + I) u hu
        omega
    | raises =>
      have e : (runPeriodic I t (TaskOutcome.raises :: rest)).1 =
          t :: (runPeriodic I t rest).1 := rfl
      rw [e] at hu
      rcases List.mem_cons.mp hu with rfl | hu
      · omega
      · exact ih t u hu
    | cancelledInSleep d =>
      have e : (runPeriodic I t (TaskOutcome.cancelledInSleep d :: rest)).1 = [t] := rfl
      rw [e] at hu
      rcases List.mem_cons.mp hu with rfl | hu
      · omega
      · simp at hu

/-! ## `add_callback` support lemmas -/

theorem strOf_map_str (ss : List Str) : (ss.map PyVal.str).map strOf = ss := by
  induction ss with
  | nil => rfl
  | cons a t ih => simp [strOf, ih]

theorem all_isStrVal_map_str (ss : List Str) : (ss.map PyVal.str).all isStrVal = true := by
  induction ss with
  | nil => rfl
  | cons a t ih => simp [isStrVal, ih]

theorem eq_map_str_of_all {xs : List PyVal} (h : xs.all isStrVal = true) :
    xs = (xs.map strOf).map PyVal.str := by
  induction xs with
  | nil => rfl
  | cons a t ih =>
    rw [List.all_cons, Bool.and_eq_true] at h
    have ha : a = PyVal.str (strOf a) := by
      cases a <;> simp [isStrVal, strOf] at *
    rw [List.map_cons, List.map_cons, ← ha, ← ih h.2]

/-! ## The specification claims -/

/-- C1: the claim says a handler exception is isolated: the loop logs,
skips the failing invocation, and continues with the remaining handlers
and future messages.  The code's `try`/`except Exception: ... break`
wraps the whole dispatch cycle, so at this input — two handlers whose
filters both match, the first raising, and two matching messages — only
handler 0 is ever invoked and the second message is never dispatched:
the loop terminates with a single truncated cycle.  (The second
conjunct shows handler 1's filter did match the message.) -/
theorem claim_c1_loop_abort :
    callbackLoopRun
        [⟨some ["EstimatedState".toList], true⟩, ⟨some ["EstimatedState".toList], false⟩]
        [[("abbrev".toList, J.str ("EstimatedState".toList))],
         [("abbrev".toList, J.str ("EstimatedState".toList))]] =
      [([("abbrev".toList, J.str ("EstimatedState".toList))], [0])] ∧
    filterMatches (some ["EstimatedState".toList])
      [("abbrev".toList, J.str ("EstimatedState".toList))] = true :=
  ⟨rfl, rfl⟩

/-- C2 (counterexample): after a handshake timeout, `connect` returns a
`None` identity, and a subsequent `send` (or `subscribe`) on that same
connection returns the not-connected sentinel `none` — no bytes are
written — because `require_connection` also fails when `system_name` is
`None`.  The claim asserted such sends still write their bytes. -/
theorem claim_c2_counterexample :
    connect initState Handshake.timeout =
      Except.ok ({ writer := some ⟨false⟩, system_name := none, messageBuffer := [] }, none) ∧
    send { writer := some ⟨false⟩, system_name := none, messageBuffer := [] }
      [("abbrev".toList, J.str ("Abort".toList))] true = none ∧
    subscribe { writer := some ⟨false⟩, system_name := none, messageBuffer := [] }
      (some ["EstimatedState".toList]) = none :=
  ⟨rfl, rfl, rfl⟩

/-- C2 (amended): on handshake timeout or malformed-JSON welcome,
`connect` completes with identity `None` and the socket stays open, but
the connection is not usable through the client API: `send` and
`subscribe` fail the `require_connection` check (which also demands a
non-`None` `system_name`) and return the `None` sentinel instead of
writing bytes. -/
theorem claim_c2_handshake_failure (s : ClientState) (d : Str)
    (hbad : loads (pyStrip d) = none) :
    (∃ s1, connect s Handshake.timeout = Except.ok (s1, none) ∧ s1.system_name = none ∧
      (∀ m u, send s1 m u = none) ∧ (∀ msgs, subscribe s1 msgs = none)) ∧
    (∃ s2, connect s (Handshake.payload d) = Except.ok (s2, none) ∧ s2.system_name = none ∧
      (∀ m u, send s2 m u = none) ∧ (∀ msgs, subscribe s2 msgs = none)) := by
  constructor
  · exact ⟨_, rfl, rfl, fun m u => rfl, fun msgs => rfl⟩
  · refine ⟨{ s with writer := some ⟨false⟩, system_name := none }, ?_, rfl,
      fun m u => rfl, fun msgs => rfl⟩
    rw [connect, hbad]

theorem claim_c2_handshake_failure_witness :
    loads (pyStrip ("DUNE ready".toList)) = none ∧
    (∃ s1, connect initState Handshake.timeout = Except.ok (s1, none) ∧
      s1.system_name = none ∧
      (∀ m u, send s1 m u = none) ∧ (∀ msgs, subscribe s1 msgs = none)) ∧
    (∃ s2, connect initState (Handshake.payload ("DUNE ready".toList)) =
        Except.ok (s2, none) ∧ s2.system_name = none ∧
      (∀ m u, send s2 m u = none) ∧ (∀ msgs, subscribe s2 msgs = none)) :=
  ⟨rfl, (claim_c2_handshake_failure initState ("DUNE ready".toList) rfl).1,
    (claim_c2_handshake_failure initState ("DUNE ready".toList) rfl).2⟩

/-- C3 (counterexample): with registrations `[None, ["EstimatedState"]]`
— one null filter present — `run`'s startup sends
`{"command": "subscribe", "messages": ["EstimatedState"]}`, not
`{"command": "subscribe_all"}`: the aggregation `if msg_filter:` skips
falsy filters instead of short-circuiting to subscribe-all. -/
theorem claim_c3_counterexample :
    runSubscribeCommand [none, some ["EstimatedState".toList]] =
      some [("command".toList, J.str ("subscribe".toList)),
            ("messages".toList, J.arr [J.str ("EstimatedState".toList)])] ∧
    runSubscribeCommand [none, some ["EstimatedState".toList]] ≠
      some [("command".toList, J.str ("subscribe_all".toList))] := by
  refine ⟨rfl, ?_⟩
  intro h
  rw [show runSubscribeCommand [none, some ["EstimatedState".toList]] =
      some [("command".toList, J.str ("subscribe".toList)),
            ("messages".toList, J.arr [J.str ("EstimatedState".toList)])] from rfl] at h
  simp at h

/-- C3 (amended): a `None` (or empty) filter contributes nothing to the
union `run` computes; the startup subscription is
`{"command":"subscribe","messages": union-of-truthy-filters}` whenever
that union is non-empty, no subscription command at all when it is
empty, and `run` never sends `subscribe_all`. -/
theorem claim_c3_union_subscription (cbs : List (Option (List Str))) :
    (∀ x, x ∈ collectMessages cbs ↔ ∃ l, some l ∈ cbs ∧ x ∈ l) ∧
    (runSubscribeCommand cbs ≠ some (subscribeCmd none)) ∧
    (collectMessages cbs = [] → runSubscribeCommand cbs = none) ∧
    (collectMessages cbs ≠ [] →
      runSubscribeCommand cbs =
        some [("command".toList, J.str ("subscribe".toList)),
              ("messages".toList, J.arr ((collectMessages cbs).map J.str))]) := by
  refine ⟨fun x => collectMessages_mem cbs x, ?_, ?_, ?_⟩
  · intro h
    rw [runSubscribeCommand] at h
    by_cases hc : collectMessages cbs = []
    · rw [if_neg (by simp [hc])] at h
      exact Option.noConfusion h
    · rw [if_pos hc] at h
      have h2 := Option.some.inj h
      rw [subscribeCmd, subscribeCmd, if_pos hc] at h2
      simp at h2
  · intro hc
    rw [runSubscribeCommand, if_neg (by simp [hc])]
  · intro hc
    rw [runSubscribeCommand, if_pos hc, subscribeCmd, if_pos hc]

theorem claim_c3_union_subscription_witness :
    runSubscribeCommand [some ["Abort".toList]] =
      some [("command".toList, J.str ("subscribe".toList)),
            ("messages".toList, J.arr (["Abort".toList].map J.str))] :=
  (claim_c3_union_subscription [some ["Abort".toList]]).2.2.2 (by decide)

/-- C4: the claim says `receive` preserves a trailing incomplete
fragment as carryover prefixed to the next read.  The code has no
carryover: at this input a frame split across two reads is lost — each
read's fragment fails `json.loads` and is dropped, so both `receive`
calls return `None` — although the concatenation of the two reads is
one complete, decodable frame (second conjunct). -/
theorem claim_c4_no_carryover :
    receiveCalls 2 [] [some ("\x7b\"abbrev\":".toList), some ("\"Abort\"\x7d\n".toList)] =
      [none, none] ∧
    loads ("\x7b\"abbrev\":".toList ++ "\"Abort\"\x7d".toList) =
      some (J.obj [("abbrev".toList, J.str ("Abort".toList))]) :=
  ⟨rfl, rfl⟩

/-- C5 (counterexample): with interval 5, a first invocation that
raises, and a second that succeeds, the invocation start times are
`[0, 0]`: the exception jumps over `asyncio.sleep(interval)`, так the
second invocation begins immediately, violating the claimed
no-earlier-than-interval spacing. -/
theorem claim_c5_counterexample :
    (runPeriodic 5 0 [TaskOutcome.raises, TaskOutcome.ok]).1 = [0, 0] ∧
    ¬ List.Chain' (fun a b => a + 5 ≤ b)
        (runPeriodic 5 0 [TaskOutcome.raises, TaskOutcome.ok]).1 := by
  refine ⟨rfl, ?_⟩
  intro h
  rw [show (runPeriodic 5 0 [TaskOutcome.raises, TaskOutcome.ok]).1 = [0, 0] from rfl] at h
  have h2 := (List.chain'_cons.mp h).1
  omega

/-- C5 (amended): after an invocation that completes normally at time
`t`, every later invocation starts no earlier than `t + interval`; after
an invocation that raises, the sleep is skipped and the next invocation
may begin immediately (at the same time `t`); cancellation `d` into the
sleep ends the task at `t + d` — before the sleep would have ended —
with no further invocations. -/
theorem claim_c5_periodic_spacing (I t d : Nat) (rest : List TaskOutcome) :
    ((runPeriodic I t (TaskOutcome.ok :: rest)).1 = t :: (runPeriodic I (t + I) rest).1 ∧
      ∀ u ∈ (runPeriodic I (t + I) rest).1, t + I ≤ u) ∧
    ((runPeriodic I t (TaskOutcome.raises :: rest)).1 = t :: (runPeriodic I t rest).1) ∧
    (runPeriodic I t (TaskOutcome.cancelledInSleep d :: rest) = ([t], some (t + d)) ∧
      (d < I → t + d < t + I)) := by
  refine ⟨⟨rfl, fun u hu => runPeriodic_mono I rest (t + I) u hu⟩, rfl, rfl, ?_⟩
  intro hd
  omega

theorem claim_c5_periodic_spacing_witness :
    runPeriodic 5 0 [TaskOutcome.cancelledInSleep 2] = ([0], some (0 + 2)) ∧ 0 + 2 < 0 + 5 :=
  ⟨(claim_c5_periodic_spacing 5 0 2 []).2.2.1,
   (claim_c5_periodic_spacing 5 0 2 []).2.2.2 (by decide)⟩

/-- C6: decoding the bytes `send` produces (`json.dumps` plus newline,
then `receive`'s strip/split/`json.loads`) reproduces the message
exactly, except that a `src` field holding the client's system name is
appended when the message had none, auto-src is enabled, and the stored
system name is truthy.  Stated for messages in the wellformed class
`jOK` (printable-ASCII strings, duplicate-free keys — the dict model). -/
theorem claim_c6_roundtrip (sys : Option J) (m : List (Str × J)) (u : Bool)
    (hok : jOK (J.obj (injectSrc sys u m)) = true)
    (_habbrev : hasKey m ("abbrev".toList) = true) :
    receiveStep [] (some (sendBytes sys m u)) = (some (J.obj (injectSrc sys u m)), []) ∧
    ((u && truthyName sys && !hasKey m ("src".toList)) = false → injectSrc sys u m = m) ∧
    (∀ v, sys = some v → (u && truthyName sys && !hasKey m ("src".toList)) = true →
      injectSrc sys u m = m ++ [("src".toList, v)]) := by
  refine ⟨?_, ?_, ?_⟩
  · have e : sendBytes sys m u = wireFrames [J.obj (injectSrc sys u m)] := by
      rw [sendBytes, wireFrames]
      simp
    rw [e]
    refine receiveStep_frames (J.obj (injectSrc sys u m)) [] ?_
    intro x hx
    rcases List.mem_singleton.mp hx with rfl
    exact hok
  · intro hc
    simp only [injectSrc, hc]
    simp
  · intro v hv hc
    simp only [injectSrc, hc, hv]
    simp
    rw [hv] at hc
    simp only [Bool.and_eq_true, Bool.not_eq_true'] at hc
    exact ⟨hc.1.1, hc.1.2, hc.2⟩

theorem claim_c6_roundtrip_witness :
    jOK (J.obj (injectSrc (some (J.str ("lauv-xplore-1".toList))) true
      [("abbrev".toList, J.str ("Heartbeat".toList)), ("timestamp".toList, J.int 42)])) =
        true ∧
    hasKey [("abbrev".toList, J.str ("Heartbeat".toList)), ("timestamp".toList, J.int 42)]
      ("abbrev".toList) = true ∧
    receiveStep [] (some (sendBytes (some (J.str ("lauv-xplore-1".toList)))
        [("abbrev".toList, J.str ("Heartbeat".toList)), ("timestamp".toList, J.int 42)] true)) =
      (some (J.obj (injectSrc (some (J.str ("lauv-xplore-1".toList))) true
        [("abbrev".toList, J.str ("Heartbeat".toList)), ("timestamp".toList, J.int 42)])), []) :=
  ⟨rfl, rfl, (claim_c6_roundtrip (some (J.str ("lauv-xplore-1".toList)))
    [("abbrev".toList, J.str ("Heartbeat".toList)), ("timestamp".toList, J.int 42)] true
    rfl rfl).1⟩

/-- C7: with every registered handler completing normally and truthy
(non-empty) messages, the loop processes every message; a handler is
invoked on a message exactly when its filter is null or the message's
`abbrev` is a member of the filter; and the handlers invoked for one
message run in registration order (strictly increasing indices). -/
theorem claim_c7_dispatch_filter (cbs : List Callback) (msgs : List (List (Str × J)))
    (hnr : ∀ cb ∈ cbs, cb.raises = false) (hm : ∀ m ∈ msgs, m.isEmpty = false) :
    callbackLoopRun cbs msgs = msgs.map (fun m => (m, invokedIdx cbs m)) ∧
    (∀ m i, i ∈ invokedIdx cbs m ↔ ∃ cb, cbs[i]? = some cb ∧ specMatches cb.filter m) ∧
    (∀ m, List.Pairwise (fun a b => a < b) (invokedIdx cbs m)) := by
  refine ⟨callbackLoopRun_total cbs msgs hnr hm, ?_, ?_⟩
  · intro m i
    obtain ⟨_, h2, _, _⟩ := dispatchMsg_enumFrom cbs m 0 hnr
    rw [invokedIdx, show cbs.enum = List.enumFrom 0 cbs from rfl, h2 i]
    constructor
    · rintro ⟨j, cb, hj1, hj2, hj3⟩
      refine ⟨cb, ?_, (filterMatches_iff _ _).mp hj3⟩
      rw [show i = j from by omega]
      exact hj1
    · rintro ⟨cb, h1, h2'⟩
      exact ⟨i, cb, h1, by omega, (filterMatches_iff _ _).mpr h2'⟩
  · intro m
    obtain ⟨_, _, _, h4⟩ := dispatchMsg_enumFrom cbs m 0 hnr
    rw [invokedIdx, show cbs.enum = List.enumFrom 0 cbs from rfl]
    exact h4

theorem claim_c7_dispatch_filter_witness :
    (∀ cb ∈ [Callback.mk (some ["Abort".toList]) false, Callback.mk none false,
        Callback.mk (some ["Heartbeat".toList]) false], cb.raises = false) ∧
    (∀ m ∈ [[(("abbrev".toList : Str), J.str ("Abort".toList))]], m.isEmpty = false) ∧
    callbackLoopRun
        [Callback.mk (some ["Abort".toList]) false, Callback.mk none false,
          Callback.mk (some ["Heartbeat".toList]) false]
        [[(("abbrev".toList : Str), J.str ("Abort".toList))]] =
      [[(("abbrev".toList : Str), J.str ("Abort".toList))]].map
        (fun m => (m, invokedIdx
          [Callback.mk (some ["Abort".toList]) false, Callback.mk none false,
            Callback.mk (some ["Heartbeat".toList]) false] m)) :=
  ⟨by decide, by decide,
   (claim_c7_dispatch_filter
     [Callback.mk (some ["Abort".toList]) false, Callback.mk none false,
       Callback.mk (some ["Heartbeat".toList]) false]
     [[(("abbrev".toList : Str), J.str ("Abort".toList))]] (by decide) (by decide)).1⟩

/-- C8: a single read containing two or more complete newline-terminated
frames: successive `receive` calls (one per dispatch cycle of
`_callback_loop`) return all the frames, one per call, in arrival
order — the pending buffer is popped front-first and never reorders. -/
theorem claim_c8_frames_order (msgs : List J) (hok : ∀ m ∈ msgs, jOK m = true)
    (h2 : 2 ≤ msgs.length) :
    receiveCalls msgs.length [] [some (wireFrames msgs)] = msgs.map some := by
  refine receiveCalls_frames msgs hok ?_
  intro h
  rw [h] at h2
  simp at h2

theorem claim_c8_frames_order_witness :
    (∀ m ∈ [J.obj [("abbrev".toList, J.str ("Abort".toList))],
        J.obj [("abbrev".toList, J.str ("Heartbeat".toList))]], jOK m = true) ∧
    2 ≤ ([J.obj [("abbrev".toList, J.str ("Abort".toList))],
        J.obj [("abbrev".toList, J.str ("Heartbeat".toList))]] : List J).length ∧
    receiveCalls 2 []
      [some (wireFrames [J.obj [("abbrev".toList, J.str ("Abort".toList))],
        J.obj [("abbrev".toList, J.str ("Heartbeat".toList))]])] =
      [some (J.obj [("abbrev".toList, J.str ("Abort".toList))]),
       some (J.obj [("abbrev".toList, J.str ("Heartbeat".toList))])] :=
  ⟨by decide, by decide,
   claim_c8_frames_order
     [J.obj [("abbrev".toList, J.str ("Abort".toList))],
      J.obj [("abbrev".toList, J.str ("Heartbeat".toList))]] (by decide) (by decide)⟩

/-- C9: `send` after `close()` returns the `None` failure sentinel and
writes nothing (for any prior state: `close` nulls the writer, and the
`require_connection` guard then short-circuits); likewise `send` before
`connect` (on the `__init__` state) returns the sentinel.  In the model
`send` is total, mirroring that the wrapper returns rather than
raising. -/
theorem claim_c9_send_sentinel (s : ClientState) (m : List (Str × J)) (u : Bool) :
    send (close s) m u = none ∧ send initState m u = none := by
  refine ⟨?_, rfl⟩
  have h : (close s).writer = none := by
    cases hw : s.writer with
    | some w => simp [close, hw]
    | none => simp [close, hw]
  have h2 : require_connection (close s) = false := by
    rw [require_connection, h]
  rw [send, h2]
  simp

/-- C10: `add_callback` accepts exactly a callable callback plus a
`messages` argument that is a list whose elements are all strings; in
particular Python `None` is rejected with `ValueError`, so a
subscribe-to-everything registration cannot be created through the
public interface, and every stored registration's filter is a list of
strings appended to the registry. -/
theorem claim_c10_add_callback (regs : List (Option (List Str))) (ic : Bool) (ms : PyVal) :
    (∀ r, add_callback regs ic PyVal.none ≠ Except.ok r) ∧
    (∀ regs', add_callback regs ic ms = Except.ok regs' ↔
      ic = true ∧ ∃ ss, ms = PyVal.list (ss.map PyVal.str) ∧ regs' = regs ++ [some ss]) := by
  constructor
  · intro r
    cases ic <;> simp [add_callback]
  · intro regs'
    constructor
    · intro h
      cases ic with
      | false => simp [add_callback] at h
      | true =>
        cases ms with
        | list xs =>
          by_cases hall : xs.all isStrVal = true
          · rw [add_callback] at h
            simp only [Bool.not_true, Bool.false_eq_true, if_false, hall, if_true] at h
            refine ⟨rfl, xs.map strOf, ?_, ?_⟩
            · exact congrArg PyVal.list (eq_map_str_of_all hall)
            · exact (Except.ok.inj h).symm
          · rw [add_callback] at h
            simp [hall] at h
        | none => simp [add_callback] at h
        | bool b => simp [add_callback] at h
        | int n => simp [add_callback] at h
        | str s2 => simp [add_callback] at h
    · rintro ⟨rfl, ss, rfl, rfl⟩
      rw [add_callback]
      simp [all_isStrVal_map_str]
      have hcomp : (strOf ∘ PyVal.str) = (id : Str → Str) := funext fun s2 => rfl
      rw [hcomp, List.map_id]

theorem claim_c10_add_callback_witness :
    add_callback [] true (PyVal.list [PyVal.str ("EstimatedState".toList)]) =
      Except.ok [some ["EstimatedState".toList]] :=
  ((claim_c10_add_callback [] true
      (PyVal.list [PyVal.str ("EstimatedState".toList)])).2 [some ["EstimatedState".toList]]).mpr
    ⟨rfl, ["EstimatedState".toList], rfl, rfl⟩

end JSONBus